import Mathlib

/-!
# video-audio: a verification development of `main.go`

The service has one source file, `main.go`.  Its pure helpers (`randID`,
`safeBaseName`, `outputFileNameFromInput`, `contentDispositionAttachment`,
`extractAudioMp3`'s error construction) and the `/extract-audio` handler are
embedded below, together with the Go standard-library functions they call
(`path/filepath` on a Unix target, `strings`, `encoding/hex`, `net/url`).

A Go `string` is a sequence of bytes, so strings are lists of bytes here.
-/

namespace VideoAudio

/-! ## Strings -/

/-- One byte of a Go string. -/
abbrev Byte := Fin 256

/-- A Go `string`: an immutable sequence of bytes. -/
abbrev Str := List Byte

/-- The bytes of an ASCII literal (used only on literals made of ASCII characters). -/
def ascii (s : String) : Str := s.toList.map (fun c => Fin.ofNat c.toNat)

/-- The byte `/`, `filepath.Separator` on a Unix target. -/
abbrev Separator : Byte := 47
/-- The byte `.`. -/
abbrev dot : Byte := 46
/-- The byte `"`. -/
abbrev dquote : Byte := 34
/-- The byte `'`. -/
abbrev apostrophe : Byte := 39
/-- The byte of the space character. -/
abbrev space : Byte := 32
/-- The byte `_`. -/
abbrev underscore : Byte := 95
/-- The byte `\r`. -/
abbrev cr : Byte := 13
/-- The byte `\n`. -/
abbrev lf : Byte := 10
/-- The byte `%`. -/
abbrev percent : Byte := 37

/-- Go `os.IsPathSeparator` on Unix: `PathSeparator == c`. -/
def IsPathSeparator (c : Byte) : Bool := c == Separator

/-- Go `strings.ReplaceAll(s, old, new)` for a one-byte `old`, which is how every
call in `main.go` uses it: each occurrence of the byte is replaced by `new`. -/
def ReplaceAll (s : Str) (old : Byte) (new : Str) : Str :=
  match s with
  | [] => []
  | c :: t => if c = old then new ++ ReplaceAll t old new else c :: ReplaceAll t old new

/-- Go `strings.HasPrefix(s, prefix)`. -/
def HasPrefix (s pre : Str) : Bool := s.take pre.length == pre

/-- Go `strings.HasSuffix(s, suffix)`. -/
def HasSuffix (s suf : Str) : Bool := s.drop (s.length - suf.length) == suf

/-- Go `strings.TrimSuffix(s, suffix)`: `s[:len(s)-len(suffix)]` when `s` ends with
`suffix`, else `s`. -/
def TrimSuffix (s suf : Str) : Str :=
  if HasSuffix s suf then s.take (s.length - suf.length) else s

/-! ## `path/filepath` (Unix) -/

/-- The loop `for len(path) > 0 && os.IsPathSeparator(path[len(path)-1])` of
`filepath.Base`, run on the reversed string: drops the trailing separators. -/
def stripTrailingSeparators (path : Str) : Str :=
  (path.reverse.dropWhile IsPathSeparator).reverse

/-- The loop `for i >= 0 && !os.IsPathSeparator(path[i]) { i-- }` followed by
`path = path[i+1:]`: the part of `path` after its last separator (all of `path`
when it has none). -/
def lastElement (path : Str) : Str :=
  (path.reverse.takeWhile (fun c => !IsPathSeparator c)).reverse

/-- Go `filepath.Base` on Unix (no volume names). -/
def Base (path : Str) : Str :=
  if path = [] then [dot]
  else
    let path := stripTrailingSeparators path
    let path := lastElement path
    if path = [] then [Separator] else path

/-- Go `filepath.Ext`: scanning from the end and stopping at a separator, the
suffix starting at the last `.`; empty when there is none.  `acc` is `path[i+1:]`
and `rev` holds `path[i], path[i-1], ...`. -/
def extLoop (rev : Str) (acc : Str) : Str :=
  match rev with
  | [] => []
  | c :: t =>
    if IsPathSeparator c then []
    else if c = dot then c :: acc
    else extLoop t (c :: acc)

/-- Go `filepath.Ext`. -/
def Ext (path : Str) : Str := extLoop path.reverse []

/-- The state of `filepath.Clean`'s loop: the bytes written so far (`out`, of
length `out.w`) and `dotdot`, the index in `out` where `..` must stop. -/
structure CleanState where
  out : Str
  dotdot : Nat
deriving DecidableEq, Repr

/-- The inner loop of the `..` case of `filepath.Clean`:
`for out.w > dotdot && !os.IsPathSeparator(out.index(out.w)) { out.w-- }`,
returning the final `out.w`. -/
def backtrackW (out : Str) (dotdot : Nat) : Nat → Nat
  | 0 => 0
  | w + 1 =>
    if w + 1 > dotdot ∧ !IsPathSeparator (out.getD (w + 1) 0) then backtrackW out dotdot w
    else w + 1

/-- The `..` case of `filepath.Clean`. -/
def cleanDotDot (rooted : Bool) (st : CleanState) : CleanState :=
  if st.out.length > st.dotdot then
    -- can backtrack
    { st with out := st.out.take (backtrackW st.out st.dotdot (st.out.length - 1)) }
  else if !rooted then
    -- cannot backtrack, but not rooted, so append .. element
    let out := (if st.out.length > 0 then st.out ++ [Separator] else st.out) ++ [dot, dot]
    { out := out, dotdot := out.length }
  else st

/-- The default case of `filepath.Clean`: add a slash if needed, then copy the
element `elem`. -/
def cleanElement (rooted : Bool) (st : CleanState) (elem : Str) : CleanState :=
  let out :=
    if (rooted ∧ st.out.length ≠ 1) ∨ (¬ rooted ∧ st.out.length ≠ 0) then st.out ++ [Separator]
    else st.out
  { st with out := out ++ elem }

/-- The main loop `for r < n` of `filepath.Clean`; `rest` is `path[r:]`.  Every
iteration consumes at least one byte, so `fuel = len(path)` iterations are enough
(`cleanLoop_fuel`). -/
def cleanLoop (rooted : Bool) : Nat → Str → CleanState → CleanState
  | 0, _, st => st
  | _ + 1, [], st => st
  | fuel + 1, c :: t, st =>
    if IsPathSeparator c then
      -- empty path element
      cleanLoop rooted fuel t st
    else if c = dot ∧ (t = [] ∨ (t.head?.map IsPathSeparator) = some true) then
      -- . element
      cleanLoop rooted fuel t st
    else if c = dot ∧ t.head? = some dot ∧
        (t.tail = [] ∨ (t.tail.head?.map IsPathSeparator) = some true) then
      -- .. element: remove to last separator
      cleanLoop rooted fuel t.tail (cleanDotDot rooted st)
    else
      -- real path element
      cleanLoop rooted fuel ((c :: t).dropWhile (fun x => !IsPathSeparator x))
        (cleanElement rooted st ((c :: t).takeWhile (fun x => !IsPathSeparator x)))

/-- Whether `path` starts with a separator: `os.IsPathSeparator(path[0])` on a
non-empty `path`. -/
def isRooted (path : Str) : Bool := (path.head?.map IsPathSeparator) = some true

/-- Go `filepath.Clean` on Unix (the volume name is always empty). -/
def Clean (path : Str) : Str :=
  if path = [] then [dot]
  else
    let rooted := isRooted path
    let st0 : CleanState := if rooted then ⟨[Separator], 1⟩ else ⟨[], 0⟩
    let rest := if rooted then path.tail else path
    let st := cleanLoop rooted rest.length rest st0
    -- Turn empty string into "."
    if st.out = [] then [dot] else st.out

/-- Go `strings.Join(elems, sep)`. -/
def stringsJoin (elems : List Str) (sep : Str) : Str :=
  match elems with
  | [] => []
  | [e] => e
  | e :: es => e ++ sep ++ stringsJoin es sep

/-- Go `filepath.Join` on Unix: the elements from the first non-empty one on are
joined with the separator and cleaned; the empty string when all are empty. -/
def Join (elem : List Str) : Str :=
  match elem with
  | [] => []
  | e :: es => if e ≠ [] then Clean (stringsJoin (e :: es) [Separator]) else Join es

/-- Go `filepath.Dir` on Unix: everything up to and including the last separator,
cleaned. -/
def Dir (path : Str) : Str :=
  Clean ((path.reverse.dropWhile (fun c => !IsPathSeparator c)).reverse)

/-! ## `encoding/hex`, `net/url` -/

/-- Go `hex.EncodeToString`'s table `"0123456789abcdef"`. -/
def hextable : Str := ascii "0123456789abcdef"

/-- Go `url`'s table `"0123456789ABCDEF"`. -/
def upperhex : Str := ascii "0123456789ABCDEF"

/-- Go `hex.EncodeToString`: two lower-case hex digits per byte, `hextable[v>>4]`
then `hextable[v&0x0f]`. -/
def EncodeToString (src : List Byte) : Str :=
  match src with
  | [] => []
  | v :: t => hextable.getD (v.val / 16) 0 :: hextable.getD (v.val % 16) 0 :: EncodeToString t

/-- Go `url.shouldEscape(c, encodePathSegment)`. -/
def shouldEscape (c : Byte) : Bool :=
  -- §2.3 Unreserved characters (alphanum)
  if (97 ≤ c.val ∧ c.val ≤ 122) ∨ (65 ≤ c.val ∧ c.val ≤ 90) ∨ (48 ≤ c.val ∧ c.val ≤ 57) then false
  -- §2.3 Unreserved characters (mark): - _ . ~
  else if c ∈ ascii "-_.~" then false
  -- §2.2 Reserved characters: in a path segment / ; , ? are escaped
  else if c ∈ ascii "$&+,/:;=?@" then c ∈ ascii "/;,?"
  -- Everything else must be escaped.
  else true

/-- Go `url.PathEscape`, that is `escape(s, encodePathSegment)`: a byte that
`shouldEscape` becomes `%` and two upper-case hex digits. -/
def PathEscape (s : Str) : Str :=
  match s with
  | [] => []
  | c :: t =>
    if shouldEscape c then
      percent :: upperhex.getD (c.val / 16) 0 :: upperhex.getD (c.val % 16) 0 :: PathEscape t
    else c :: PathEscape t

/-- Go `url.ishex`. -/
def ishex (c : Byte) : Bool :=
  (48 ≤ c.val ∧ c.val ≤ 57) ∨ (97 ≤ c.val ∧ c.val ≤ 102) ∨ (65 ≤ c.val ∧ c.val ≤ 70)

/-- Go `url.unhex`. -/
def unhex (c : Byte) : Nat :=
  if 48 ≤ c.val ∧ c.val ≤ 57 then c.val - 48
  else if 97 ≤ c.val ∧ c.val ≤ 102 then c.val - 97 + 10
  else if 65 ≤ c.val ∧ c.val ≤ 70 then c.val - 65 + 10
  else 0

/-- Go `url.PathUnescape`, that is `unescape(s, encodePathSegment)`: percent-decoding.
A `%` not followed by two hex digits is an error (`none`); `+` stays `+`. -/
def PathUnescape (s : Str) : Option Str :=
  match s with
  | [] => some []
  | c :: t =>
    if c = percent then
      match t with
      | h :: l :: t2 =>
        if ishex h ∧ ishex l then
          (PathUnescape t2).map (fun r => Fin.ofNat (unhex h * 16 + unhex l) :: r)
        else none
      | _ => none
    else (PathUnescape t).map (fun r => c :: r)

/-! ## The helpers of `main.go` -/

/-- `randID` of `main.go`: `b` is the buffer of `nBytes` bytes after `rand.Read`
filled it; the result is its hex encoding. -/
def randID (b : List Byte) : Str := EncodeToString b

/-- `safeBaseName` of `main.go`. -/
def safeBaseName (name : Str) : Str :=
  let base := Base name
  let base := ReplaceAll base dquote [underscore]
  let base := ReplaceAll base apostrophe [underscore]
  let base := ReplaceAll base space [underscore]
  if base = [dot] ∨ base = [Separator] ∨ base = [] then ascii "upload.bin"
  else base

/-- `outputFileNameFromInput` of `main.go`. -/
def outputFileNameFromInput (inputFilename newExt : Str) : Str :=
  let base := Base inputFilename
  let base := ReplaceAll base cr []
  let base := ReplaceAll base lf []
  let nameNoExt := TrimSuffix base (Ext base)
  let nameNoExt := if nameNoExt = [] ∨ nameNoExt = [dot] then ascii "audio" else nameNoExt
  let newExt := if !HasPrefix newExt [dot] then [dot] ++ newExt else newExt
  nameNoExt ++ newExt

/-- `contentDispositionAttachment` of `main.go`. -/
def contentDispositionAttachment (filename : Str) : Str :=
  let fallback := safeBaseName filename
  let utf8Name := ReplaceAll filename cr []
  let utf8Name := ReplaceAll utf8Name lf []
  ascii "attachment; filename=\"" ++ fallback ++ ascii "\"; filename*=UTF-8''" ++ PathEscape utf8Name

/-! ## `strings.TrimSpace`, `strconv.Itoa` -/

/-- Go `strings`' table `asciiSpace`: tab, newline, vertical tab, form feed,
carriage return and space. -/
def asciiSpace (c : Byte) : Bool :=
  c.val = 9 ∨ c.val = 10 ∨ c.val = 11 ∨ c.val = 12 ∨ c.val = 13 ∨ c.val = 32

/-- The UTF-8 encodings of the non-ASCII code points for which Go `unicode.IsSpace`
holds: U+0085, U+00A0, U+1680, U+2000 to U+200A, U+2028, U+2029, U+202F, U+205F,
U+3000. -/
def unicodeSpaces : List Str :=
  [[0xC2, 0x85], [0xC2, 0xA0], [0xE1, 0x9A, 0x80],
   [0xE2, 0x80, 0x80], [0xE2, 0x80, 0x81], [0xE2, 0x80, 0x82], [0xE2, 0x80, 0x83],
   [0xE2, 0x80, 0x84], [0xE2, 0x80, 0x85], [0xE2, 0x80, 0x86], [0xE2, 0x80, 0x87],
   [0xE2, 0x80, 0x88], [0xE2, 0x80, 0x89], [0xE2, 0x80, 0x8A],
   [0xE2, 0x80, 0xA8], [0xE2, 0x80, 0xA9], [0xE2, 0x80, 0xAF], [0xE2, 0x81, 0x9F],
   [0xE3, 0x80, 0x80]]

/-- The width in bytes of the white-space rune `s` starts with (what
`utf8.DecodeRuneInString` followed by `unicode.IsSpace` finds), `0` when `s` does
not start with one. -/
def spaceWidthStart (s : Str) : Nat :=
  match s with
  | [] => 0
  | c :: _ =>
    if asciiSpace c then 1
    else match unicodeSpaces.find? (fun p => HasPrefix s p) with
      | some p => p.length
      | none => 0

/-- The width in bytes of the white-space rune `s` ends with (what
`utf8.DecodeLastRuneInString` followed by `unicode.IsSpace` finds), `0` when `s`
does not end with one. -/
def spaceWidthEnd (s : Str) : Nat :=
  match s.getLast? with
  | none => 0
  | some c =>
    if asciiSpace c then 1
    else match unicodeSpaces.find? (fun p => HasSuffix s p) with
      | some p => p.length
      | none => 0

/-- Go `strings.TrimLeftFunc(s, unicode.IsSpace)`; each step drops one rune, so
`fuel = len(s)` steps are enough. -/
def trimLeftSpace : Nat → Str → Str
  | 0, s => s
  | fuel + 1, s =>
    if spaceWidthStart s = 0 then s else trimLeftSpace fuel (s.drop (spaceWidthStart s))

/-- Go `strings.TrimRightFunc(s, unicode.IsSpace)`. -/
def trimRightSpace : Nat → Str → Str
  | 0, s => s
  | fuel + 1, s =>
    if spaceWidthEnd s = 0 then s
    else trimRightSpace fuel (s.take (s.length - spaceWidthEnd s))

/-- Go `strings.TrimSpace`: leading and trailing Unicode white space removed. -/
def TrimSpace (s : Str) : Str :=
  let s := trimLeftSpace s.length s
  trimRightSpace s.length s

/-- Go `strconv.Itoa` on a non-negative integer: its decimal digits. -/
def Itoa (n : Nat) : Str := (Nat.toDigits 10 n).map (fun c => Fin.ofNat c.toNat)

/-! ## The transcode invoker -/

/-- The `error` of `cmd.CombinedOutput()`. -/
inductive ExecError
  /-- `*exec.ExitError` of the encoder's own exit with a non-zero status. -/
  | exitStatus (code : Nat)
  /-- `*exec.ExitError` of a process killed because the context was done. -/
  | killedByContext
  /-- `context.DeadlineExceeded`: the deadline elapsed. -/
  | deadlineExceeded
  /-- `context.Canceled`: the caller disconnected. -/
  | canceled
  /-- The process could not be started. -/
  | startFailed (msg : Str)
deriving DecidableEq, Repr

/-- The text `err.Error()` of an `ExecError`. -/
def ExecError.Error : ExecError → Str
  | .exitStatus code => ascii "exit status " ++ Itoa code
  | .killedByContext => ascii "signal: killed"
  | .deadlineExceeded => ascii "context deadline exceeded"
  | .canceled => ascii "context canceled"
  | .startFailed msg => msg

/-- Whether the run ended because the deadline elapsed or the caller disconnected. -/
def ExecError.endedByContext : ExecError → Bool
  | .killedByContext => true
  | .deadlineExceeded => true
  | .canceled => true
  | _ => false

/-- Whether the run ended by the encoder's own non-zero exit. -/
def ExecError.encoderReported : ExecError → Bool
  | .exitStatus code => code ≠ 0
  | _ => false

/-- What `cmd.CombinedOutput()` returns: the merged standard output and standard
error, and the error (`none` is `nil`). -/
structure CmdResult where
  out : Str
  err : Option ExecError
deriving DecidableEq, Repr

/-- The argument list `extractAudioMp3` builds for the encoder. -/
def ffmpegArgs (inputPath outputPath bitrate : Str) (sampleRate channels : Nat) : List Str :=
  [ascii "-y",
   ascii "-i", inputPath,
   ascii "-vn",
   ascii "-acodec", ascii "libmp3lame",
   ascii "-b:a", TrimSpace bitrate,
   ascii "-ar", Itoa sampleRate,
   ascii "-ac", Itoa channels,
   outputPath]

/-- The tail of `extractAudioMp3` of `main.go`, after `cmd.CombinedOutput()`
returned `res`: the returned `error`, as its message (`fmt.Errorf("%s", msg)`
holds nothing else); `none` is `nil`. -/
def extractAudioMp3Result (res : CmdResult) : Option Str :=
  match res.err with
  | some err =>
    let msg := TrimSpace res.out
    let msg := if msg = [] then err.Error else msg
    some msg
  | none => none

/-! ## The `/extract-audio` handler -/

/-- A Go `error` seen by the handler: its `Error()` text, and whether
`errors.Is(err, http.ErrBodyReadAfterClose)` holds of it. -/
structure GoError where
  msg : Str
  isBodyReadAfterClose : Bool
deriving DecidableEq, Repr

/-- An error of `os.Create`, or of `io.Copy` from the `multipart.File` of
`r.FormFile` (a reader over memory or over a temp file, the request body having
been consumed by `r.ParseMultipartForm` before) to an `*os.File`: an error of the
`os` and `io` packages, with its `Error()` text.  None of them is or wraps
`http.ErrBodyReadAfterClose`, which only a read of the request body returns. -/
structure FileError where
  msg : Str
deriving DecidableEq, Repr

/-- A `FileError` as the handler sees it: `errors.Is(err, http.ErrBodyReadAfterClose)`
is false of it. -/
def FileError.toError (e : FileError) : GoError :=
  { msg := e.msg, isBodyReadAfterClose := false }

/-- The file `r.FormFile("file")` returns: `fh.Filename` and the bytes of `f`. -/
structure Upload where
  filename : Str
  content : Str
deriving DecidableEq, Repr

/-- What `r.ParseMultipartForm` leaves behind when it succeeds: the values of the
form field `name` and the first file of the form field `file`, if any. -/
structure MultipartForm where
  nameValues : List Str
  file : Option Upload
deriving DecidableEq, Repr

/-- The parts of the `*http.Request` the handler reads. -/
structure Request where
  /-- `r.Method`. -/
  method : Str
  /-- `r.Header.Get("Content-Type")`. -/
  contentType : Str
  /-- The values of `name` in the URL query, in order: `r.URL.Query()["name"]`. -/
  queryName : List Str
  /-- The values of `name` in an `application/x-www-form-urlencoded` body
  (`r.PostForm["name"]` after `r.ParseForm()`); empty for any other body. -/
  postFormName : List Str
  /-- The outcome of `r.ParseMultipartForm(32 << 20)`, were it called. -/
  multipart : Except GoError MultipartForm
deriving Repr

/-- The process-wide configuration `main` reads from the environment. -/
structure Config where
  maxUploadMB : Nat
  timeoutSec : Nat
  tempDir : Str
  ffmpegPath : Str
  mp3Bitrate : Str
  mp3Channels : Nat
  mp3SampleRate : Nat
  defaultVideoPath : Str
deriving Repr

/-- The file system, as far as the handler is concerned: the paths that exist. -/
abbrev FS := List Str

/-- `os.Remove(path)` under the assumption that removing a path succeeds: the path
does not exist afterwards (and removing a missing path changes nothing). -/
def FS.remove (fs : FS) (path : Str) : FS := fs.filter (fun p => p ≠ path)

/-- `os.Create(path)` succeeding: the path exists afterwards. -/
def FS.create (fs : FS) (path : Str) : FS := if path ∈ fs then fs else path :: fs

/-- What the handler does to the world outside, in order. -/
inductive Event
  /-- `os.Create(path)` created or truncated the file. -/
  | created (path : Str)
  /-- `exec.CommandContext(ctx, name, args...)` was run. -/
  | executed (name : Str) (args : List Str)
  /-- `os.Remove(path)` was called. -/
  | removed (path : Str)
deriving DecidableEq, Repr

/-- The state the handler acts on: the file system and the log of its effects. -/
structure World where
  fs : FS
  trace : List Event
deriving DecidableEq, Repr

/-- The outcome of `os.Stat` / `f.Stat`. -/
structure FileInfo where
  isDir : Bool
  size : Nat
deriving DecidableEq, Repr

/-- The behaviour of everything outside the handler during one request; every
field is arbitrary, so a statement for all `Env` covers every outcome. -/
structure Env where
  /-- The 12 bytes `rand.Read` puts in `randID`'s buffer. -/
  idBytes : List Byte
  /-- `os.Stat(defaultVideoPath)`. -/
  statDefault : Except GoError FileInfo
  /-- `os.Create(inPath)` in `saveToFile` (`none`: it succeeds). -/
  createErr : Option FileError
  /-- `io.Copy(out, src)` in `saveToFile` (`none`: it succeeds). -/
  copyInErr : Option FileError
  /-- The run of the encoder: what it does to the files, and what
  `cmd.CombinedOutput()` returns. -/
  ffmpeg : List Str → FS → FS × CmdResult
  /-- `os.Open(outPath)` in `serveAudioFile` (`none`: it succeeds). -/
  openErr : Option GoError
  /-- `f.Stat()` in `serveAudioFile`. -/
  statOut : Except GoError FileInfo
  /-- The bytes of the output file. -/
  audio : Str
  /-- `io.Copy(w, f)` in `serveAudioFile`: the number of bytes that reached the
  client, and the error (`none`: the copy completed). -/
  copyOut : Nat × Option GoError

/-- An HTTP response as written to the `http.ResponseWriter`. -/
structure Response where
  status : Nat
  headers : List (Str × Str)
  body : Str
deriving DecidableEq, Repr

/-- Go `http.Error(w, error, code)`: a plain-text response with the given status. -/
def httpError (error : Str) (code : Nat) : Response :=
  { status := code
    headers := [(ascii "Content-Type", ascii "text/plain; charset=utf-8"),
                (ascii "X-Content-Type-Options", ascii "nosniff")]
    body := error ++ [lf] }

/-- `http.StatusOK`. -/
abbrev StatusOK : Nat := 200
/-- `http.StatusBadRequest`. -/
abbrev StatusBadRequest : Nat := 400
/-- `http.StatusMethodNotAllowed`. -/
abbrev StatusMethodNotAllowed : Nat := 405
/-- `http.StatusInternalServerError`. -/
abbrev StatusInternalServerError : Nat := 500

/-- Go `r.FormValue(key)` for the key `name`, given `r.Form["name"]`: the first
value, or the empty string. -/
def firstValue (vs : List Str) : Str := vs.headD []

/-- What lines 58 to 84 of `main.go` establish: the uploaded file, if any
(`haveFile`, `filename`, `file`), and `nameHint`. -/
structure Source where
  file : Option Upload
  nameHint : Str
deriving DecidableEq, Repr

/-- Lines 64 to 84 of `main.go`: the request is parsed and `nameHint` chosen; a
multipart body that does not parse is answered with 400.  After
`r.ParseMultipartForm`, `r.Form["name"]` holds the query values followed by the
multipart values; after `r.ParseForm`, the values of the url-encoded body followed
by the query values. -/
def resolveSource (r : Request) : Except Response Source :=
  let q := TrimSpace (firstValue r.queryName)
  if HasPrefix r.contentType (ascii "multipart/form-data") then
    match r.multipart with
    | .error err =>
      .error (httpError (ascii "parse multipart failed: " ++ err.msg) StatusBadRequest)
    | .ok form =>
      let nameHint := TrimSpace (firstValue (r.queryName ++ form.nameValues))
      .ok { file := form.file, nameHint := if q ≠ [] then q else nameHint }
  else
    let nameHint := TrimSpace (firstValue (r.postFormName ++ r.queryName))
    .ok { file := none, nameHint := if q ≠ [] then q else nameHint }

/-- `saveToFile` of `main.go`: `os.Create`, then `io.Copy`; the file exists as soon
as `os.Create` succeeded. -/
def saveToFile (env : Env) (path : Str) (w : World) : World × Option GoError :=
  match env.createErr with
  | some err => (w, some err.toError)
  | none =>
    let w := { w with fs := w.fs.create path, trace := w.trace ++ [.created path] }
    (w, env.copyInErr.map FileError.toError)

/-- `extractAudioMp3` of `main.go`: the encoder is run on the argument list, and its
failure is turned into an error message. -/
def extractAudioMp3 (env : Env) (ffmpegPath inputPath outputPath bitrate : Str)
    (sampleRate channels : Nat) (w : World) : World × Option Str :=
  let args := ffmpegArgs inputPath outputPath bitrate sampleRate channels
  let (fs, res) := env.ffmpeg args w.fs
  ({ fs := fs, trace := w.trace ++ [.executed ffmpegPath args] }, extractAudioMp3Result res)

/-- `serveAudioFile` of `main.go`. -/
def serveAudioFile (env : Env) (downloadName mp3Bitrate : Str)
    (mp3SampleRate mp3Channels : Nat) : Response :=
  match env.openErr with
  | some err => httpError (ascii "open output failed: " ++ err.msg) StatusInternalServerError
  | none =>
    match env.statOut with
    | .error err => httpError (ascii "stat output failed: " ++ err.msg) StatusInternalServerError
    | .ok st =>
      { status := StatusOK
        headers :=
          [(ascii "Content-Type", ascii "audio/mpeg"),
           (ascii "X-Audio-Bitrate", mp3Bitrate),
           (ascii "X-Audio-Sample-Rate", Itoa mp3SampleRate),
           (ascii "X-Audio-Channels", Itoa mp3Channels),
           (ascii "Content-Disposition", contentDispositionAttachment downloadName),
           (ascii "Content-Length", Itoa st.size)]
        -- an interrupted copy is only logged
        body := env.audio.take env.copyOut.1 }

/-- A call registered with `defer` in the handler. -/
inductive Deferred
  /-- `defer func() { _ = os.Remove(path) }()`. -/
  | remove (path : Str)
  /-- `defer cancel()`. -/
  | cancel
  /-- `defer file.Close()`. -/
  | close
deriving DecidableEq, Repr

/-- One deferred call is run. -/
def Deferred.run (d : Deferred) (w : World) : World :=
  match d with
  | .remove path => { fs := w.fs.remove path, trace := w.trace ++ [.removed path] }
  | .cancel => w
  | .close => w

/-- The deferred calls are run when the handler returns, last registered first;
`ds` lists them with the last registered at the head. -/
def runDeferred (ds : List Deferred) (w : World) : World :=
  match ds with
  | [] => w
  | d :: ds => runDeferred ds (d.run w)

/-- The output path of line 88 of `main.go`:
`filepath.Join(tempDir, fmt.Sprintf("audio_%s.mp3", reqID))`. -/
def outPathOf (tempDir reqID : Str) : Str :=
  Join [tempDir, ascii "audio_" ++ reqID ++ ascii ".mp3"]

/-- The upload path of lines 98 and 99 of `main.go`:
`filepath.Join(tempDir, fmt.Sprintf("upload_%s_%s", reqID, safeBaseName(filename)))`. -/
def inPathOf (tempDir reqID filename : Str) : Str :=
  Join [tempDir, ascii "upload_" ++ reqID ++ ascii "_" ++ safeBaseName filename]

/-- The test `err != nil || st.IsDir()` of line 117 on `os.Stat(defaultVideoPath)`. -/
def defaultMissing (env : Env) : Bool :=
  match env.statDefault with
  | .error _ => true
  | .ok st => st.isDir

/-- Lines 129 to 135 of `main.go`: transcode, then serve. -/
def transcodeAndServe (cfg : Config) (env : Env) (inPath outPath downloadName : Str)
    (w : World) : World × Response :=
  match extractAudioMp3 env cfg.ffmpegPath inPath outPath cfg.mp3Bitrate
      cfg.mp3SampleRate cfg.mp3Channels w with
  | (w, some err) =>
    (w, httpError (ascii "ffmpeg extract failed: " ++ err) StatusInternalServerError)
  | (w, none) =>
    (w, serveAudioFile env downloadName cfg.mp3Bitrate cfg.mp3SampleRate cfg.mp3Channels)

/-- Lines 86 to 135 of `main.go`, up to the return: the world and the response
when the handler returns, and the deferred calls then pending (last registered
first). -/
def handleSource (cfg : Config) (env : Env) (src : Source) (w : World) :
    World × Response × List Deferred :=
  let reqID := randID env.idBytes
  let outPath := outPathOf cfg.tempDir reqID
  -- `defer file.Close()` (line 76), `defer os.Remove(outPath)`, `defer cancel()`
  let ds : List Deferred :=
    [.cancel, .remove outPath] ++ (if src.file.isSome then [.close] else [])
  match src.file with
  | some up =>
    let inPath := inPathOf cfg.tempDir reqID up.filename
    let ds := Deferred.remove inPath :: ds
    match saveToFile env inPath w with
    | (w, some err) =>
      let status :=
        if err.isBodyReadAfterClose then StatusBadRequest else StatusInternalServerError
      (w, httpError (ascii "save upload failed: " ++ err.msg) status, ds)
    | (w, none) =>
      let downloadName :=
        if src.nameHint ≠ [] then outputFileNameFromInput src.nameHint (ascii ".mp3")
        else outputFileNameFromInput up.filename (ascii ".mp3")
      let (w, resp) := transcodeAndServe cfg env inPath outPath downloadName w
      (w, resp, ds)
  | none =>
    -- no file: the default video file is used
    if defaultMissing env then
      (w, httpError (ascii "default video not found on server") StatusBadRequest, ds)
    else
      let inPath := cfg.defaultVideoPath
      let downloadName :=
        if src.nameHint ≠ [] then outputFileNameFromInput src.nameHint (ascii ".mp3")
        else outputFileNameFromInput (Base cfg.defaultVideoPath) (ascii ".mp3")
      let (w, resp) := transcodeAndServe cfg env inPath outPath downloadName w
      (w, resp, ds)

/-- The `/extract-audio` handler of `main.go`: the world after it returned (its
deferred calls run) and the response. -/
def extractAudioHandler (cfg : Config) (env : Env) (r : Request) (w : World) :
    World × Response :=
  if r.method ≠ ascii "POST" then
    (w, httpError (ascii "method not allowed") StatusMethodNotAllowed)
  else
    match resolveSource r with
    | .error resp => (w, resp)
    | .ok src =>
      let (w, resp, ds) := handleSource cfg env src w
      (runDeferred ds w, resp)

/-! ## Stages of a request, for stating what the handler answers -/

/-- The values of `name` the form body supplies: the multipart field in the
multipart branch, the url-encoded body otherwise. -/
def formName (r : Request) : List Str :=
  if HasPrefix r.contentType (ascii "multipart/form-data") then
    match r.multipart with
    | .ok form => form.nameValues
    | .error _ => []
  else r.postFormName

/-- The error of `saveToFile` at line 101, when the request uploaded a file and
saving it failed. -/
def saveFailure (cfg : Config) (env : Env) (src : Source) (w : World) : Option GoError :=
  match src.file with
  | some up => (saveToFile env (inPathOf cfg.tempDir (randID env.idBytes) up.filename) w).2
  | none => none

/-- The input path and the world with which line 129 (the transcode) is reached,
if it is reached: after a successful save, or with the default file in place. -/
def sourceReady (cfg : Config) (env : Env) (src : Source) (w : World) : Option (Str × World) :=
  match src.file with
  | some up =>
    match saveToFile env (inPathOf cfg.tempDir (randID env.idBytes) up.filename) w with
    | (_, some _) => none
    | (w, none) => some (inPathOf cfg.tempDir (randID env.idBytes) up.filename, w)
  | none => if defaultMissing env then none else some (cfg.defaultVideoPath, w)

/-- The error of `extractAudioMp3` at line 129, when the transcode is reached and
fails. -/
def transcodeFailure (cfg : Config) (env : Env) (src : Source) (w : World) : Option Str :=
  match sourceReady cfg env src w with
  | some (inPath, w) =>
    (extractAudioMp3 env cfg.ffmpegPath inPath (outPathOf cfg.tempDir (randID env.idBytes))
      cfg.mp3Bitrate cfg.mp3SampleRate cfg.mp3Channels w).2
  | none => none

/-- Whether `serveAudioFile` is reached and opening or stat-ing the output fails. -/
def serveFailure (cfg : Config) (env : Env) (src : Source) (w : World) : Bool :=
  (sourceReady cfg env src w).isSome && (transcodeFailure cfg env src w).isNone &&
    (env.openErr.isSome || match env.statOut with
      | .error _ => true
      | .ok _ => false)

/-- Whether every byte of `s` is an ASCII character (below `utf8.RuneSelf`). -/
def isASCII (s : Str) : Bool := s.all (fun c => c.val < 128)

/-! ## Notions for reasoning about `filepath.Clean` -/

/-- A regular path element: non-empty, without separator, neither `.` nor `..`. -/
def Regular (c : Str) : Prop := c ≠ [] ∧ Separator ∉ c ∧ c ≠ [dot] ∧ c ≠ [dot, dot]

/-- The loop of `filepath.Clean` run on `rest` with `len(rest)` iterations allowed. -/
def cleanRun (rooted : Bool) (rest : Str) (st : CleanState) : CleanState :=
  cleanLoop rooted rest.length rest st

/-- What the loop of `filepath.Clean` does with one path element `c`. -/
def cleanStep (rooted : Bool) (st : CleanState) (c : Str) : CleanState :=
  if c = [] ∨ c = [dot] then st
  else if c = [dot, dot] then cleanDotDot rooted st
  else cleanElement rooted st c

/-- The state in which the loop of `Clean path` ends. -/
def cleanFinal (path : Str) : CleanState :=
  cleanRun (isRooted path) (if isRooted path then path.tail else path)
    (if isRooted path then ⟨[Separator], 1⟩ else ⟨[], 0⟩)

/-- What `filepath.Join(dir, elem)` puts in front of a regular element `elem`: the
cleaned `dir` and a separator, unless the cleaned `dir` is empty or the root. -/
def joinPrefix (dir : Str) : Str :=
  if dir = [] then []
  else
    let st := cleanFinal dir
    if (isRooted dir ∧ st.out.length ≠ 1) ∨ (¬ isRooted dir ∧ st.out.length ≠ 0) then
      st.out ++ [Separator]
    else st.out

/-- The output of the loop of `filepath.Clean` in canonical form: the root if
`rooted`, then `k` elements `..`, then the elements `comps`, joined by separators. -/
def formOut (rooted : Bool) (k : Nat) (comps : List Str) : Str :=
  (if rooted then [Separator] else []) ++
    stringsJoin (List.replicate k [dot, dot] ++ comps) [Separator]

/-- The state of the loop of `filepath.Clean` in canonical form. -/
def formState (rooted : Bool) (k : Nat) (comps : List Str) : CleanState :=
  { out := formOut rooted k comps
    dotdot :=
      if rooted then 1 else (stringsJoin (List.replicate k [dot, dot]) [Separator]).length }

/-- The canonical form is well formed: no `..` under the root, and regular
elements only. -/
def FormOk (rooted : Bool) (k : Nat) (comps : List Str) : Prop :=
  (rooted = true → k = 0) ∧ ∀ c ∈ comps, Regular c

/-! ## Concrete inputs -/

/-- A configuration: the defaults of `main`, with `/tmp` as scratch directory. -/
def cfgDefault : Config :=
  { maxUploadMB := 2048
    timeoutSec := 1800
    tempDir := ascii "/tmp"
    ffmpegPath := ascii "ffmpeg"
    mp3Bitrate := ascii "96k"
    mp3Channels := 2
    mp3SampleRate := 44100
    defaultVideoPath := ascii "/opt/video-audio/default.mp4" }

/-- An environment in which everything succeeds: the encoder writes its last
argument, the output path. -/
def envOk : Env where
  idBytes := [1, 2, 3, 4, 5, 6, 7, 8, 9, 10, 11, 12]
  statDefault := .ok ⟨false, 10⟩
  createErr := none
  copyInErr := none
  ffmpeg := fun args fs => (fs.create (args.getLastD []), ⟨[], none⟩)
  openErr := none
  statOut := .ok ⟨false, 3⟩
  audio := [73, 68, 51]
  copyOut := (3, none)

/-- As `envOk`, but copying the upload fails because the disk is full. -/
def envDiskFull : Env :=
  { envOk with copyInErr := some ⟨ascii "no space left on device"⟩ }

/-- As `envOk`, but the default video file does not exist. -/
def envNoDefault : Env :=
  { envOk with statDefault := .error ⟨ascii "no such file or directory", false⟩ }

/-- A multipart upload of `movie.mov` without a name hint. -/
def reqUpload : Request :=
  { method := ascii "POST"
    contentType := ascii "multipart/form-data; boundary=x"
    queryName := []
    postFormName := []
    multipart := .ok ⟨[], some ⟨ascii "movie.mov", [0, 1, 2]⟩⟩ }

/-- The uploaded file of `reqUpload`. -/
def uploadMovie : Upload := ⟨ascii "movie.mov", [0, 1, 2]⟩

/-- What `resolveSource` makes of `reqUpload`. -/
def srcUpload : Source := ⟨some uploadMovie, []⟩

/-- A POST without a body. -/
def reqNoFile : Request :=
  { method := ascii "POST"
    contentType := []
    queryName := []
    postFormName := []
    multipart := .error ⟨ascii "request Content-Type isn't multipart/form-data", false⟩ }

/-- A url-encoded POST with body `name=talk` to `/extract-audio?name=%20`: the query
parameter is present and blank. -/
def reqBlankQuery : Request :=
  { method := ascii "POST"
    contentType := ascii "application/x-www-form-urlencoded"
    queryName := [ascii " "]
    postFormName := [ascii "talk"]
    multipart := .error ⟨ascii "request Content-Type isn't multipart/form-data", false⟩ }

/-- A multipart POST with form field `name=talk` and a file `movie.mov` to
`/extract-audio?name=%20`: the query parameter is present and blank. -/
def reqMultipartBlankQuery : Request :=
  { method := ascii "POST"
    contentType := ascii "multipart/form-data; boundary=x"
    queryName := [ascii " "]
    postFormName := []
    multipart := .ok ⟨[ascii "talk"], some ⟨ascii "movie.mov", [0, 1, 2]⟩⟩ }

/-- A url-encoded POST with body `name=talk` to `/extract-audio?name=%20show%20`. -/
def reqQueryName : Request :=
  { reqBlankQuery with queryName := [ascii " show "] }

/-- A world with one unrelated file in the scratch directory. -/
def worldStart : World := { fs := [ascii "/tmp/keep.txt"], trace := [] }

/-- A run the context ended: the encoder printed `Press [q] to stop` and was killed. -/
def runKilled : CmdResult := ⟨ascii "Press [q] to stop\n", some .killedByContext⟩

/-- A run the encoder ended itself with status 1 after printing the same text. -/
def runExit1 : CmdResult := ⟨ascii "Press [q] to stop\n", some (.exitStatus 1)⟩

/-- A run the context ended before the encoder printed anything but white space. -/
def runKilledSilent : CmdResult := ⟨ascii " \n", some .killedByContext⟩

/-- A run the encoder ended itself with status 1 without printing anything. -/
def runExit1Silent : CmdResult := ⟨[], some (.exitStatus 1)⟩

/-- The display name `é.mp3` in UTF-8. -/
def nameEAcute : Str := [0xC3, 0xA9, 46, 109, 112, 51]

/-! ## Strings: basic facts -/

theorem ascii_dot : ascii "." = [dot] := rfl

theorem ascii_mp3 : ascii ".mp3" = [dot, 109, 112, 51] := rfl

theorem ascii_audio : ascii "audio" = [97, 117, 100, 105, 111] := rfl

theorem ascii_uploadBin : ascii "upload.bin" = [117, 112, 108, 111, 97, 100, 46, 98, 105, 110] :=
  rfl

theorem not_mem_ReplaceAll_self (s : Str) (old : Byte) (new : Str) (h : old ∉ new) :
    old ∉ ReplaceAll s old new := by
  induction s with
  | nil => simp [ReplaceAll]
  | cons c t ih =>
    unfold ReplaceAll
    split
    · simp [h, ih]
    · rename_i hc
      simp [ih, Ne.symm hc]

theorem not_mem_ReplaceAll (s : Str) (old : Byte) (new : Str) (c : Byte)
    (hs : c ∉ s) (hn : c ∉ new) : c ∉ ReplaceAll s old new := by
  induction s with
  | nil => simp [ReplaceAll]
  | cons a t ih =>
    simp only [List.mem_cons, not_or] at hs
    unfold ReplaceAll
    split
    · simp [hn, ih hs.2]
    · simp [hs.1, ih hs.2]

theorem ReplaceAll_nil_eq_filter (s : Str) (old : Byte) :
    ReplaceAll s old [] = s.filter (fun c => c ≠ old) := by
  induction s with
  | nil => rfl
  | cons a t ih =>
    unfold ReplaceAll
    by_cases h : a = old
    · simp [h, ih]
    · simp [h, ih]

theorem ReplaceAll_cr_lf (s : Str) :
    ReplaceAll (ReplaceAll s cr []) lf [] = s.filter (fun c => c ≠ cr ∧ c ≠ lf) := by
  rw [ReplaceAll_nil_eq_filter, ReplaceAll_nil_eq_filter, List.filter_filter]
  congr 1
  funext c
  simp [and_comm]

/-! ## `strings.TrimSpace`: the fuel is enough -/

theorem trimLeftSpace_done (fuel : Nat) :
    ∀ s : Str, s.length ≤ fuel → spaceWidthStart (trimLeftSpace fuel s) = 0 := by
  induction fuel with
  | zero =>
    intro s h
    have : s = [] := List.length_eq_zero.1 (Nat.le_zero.1 h)
    subst this
    rfl
  | succ n ih =>
    intro s h
    unfold trimLeftSpace
    split_ifs with h0
    · exact h0
    · apply ih
      simp only [List.length_drop]
      omega

theorem trimRightSpace_done (fuel : Nat) :
    ∀ s : Str, s.length ≤ fuel → spaceWidthEnd (trimRightSpace fuel s) = 0 := by
  induction fuel with
  | zero =>
    intro s h
    have : s = [] := List.length_eq_zero.1 (Nat.le_zero.1 h)
    subst this
    rfl
  | succ n ih =>
    intro s h
    unfold trimRightSpace
    split_ifs with h0
    · exact h0
    · apply ih
      have hne : s ≠ [] := by
        intro hs
        subst hs
        exact h0 rfl
      have hpos := List.length_pos.2 hne
      simp only [List.length_take]
      omega

/-- The loops of `TrimSpace` stop because nothing is left to trim, not because
their fuel ran out: after the left trim the string does not start with white space,
and the result does not end with white space. -/
theorem TrimSpace_done (s : Str) :
    spaceWidthStart (trimLeftSpace s.length s) = 0 ∧ spaceWidthEnd (TrimSpace s) = 0 :=
  ⟨trimLeftSpace_done _ _ (Nat.le_refl _), trimRightSpace_done _ _ (Nat.le_refl _)⟩

/-! ## Percent-encoding round trip -/

theorem shouldEscape_percent : shouldEscape percent = true := by decide

set_option maxRecDepth 100000 in
theorem unhex_upperhex (c : Byte) :
    ishex (upperhex.getD (c.val / 16) 0) = true ∧ ishex (upperhex.getD (c.val % 16) 0) = true ∧
    (Fin.ofNat (unhex (upperhex.getD (c.val / 16) 0) * 16 +
      unhex (upperhex.getD (c.val % 16) 0)) : Byte) = c := by
  revert c
  decide

theorem PathUnescape_PathEscape (s : Str) : PathUnescape (PathEscape s) = some s := by
  induction s with
  | nil => rfl
  | cons c t ih =>
    unfold PathEscape
    by_cases h : shouldEscape c = true
    · obtain ⟨h1, h2, h3⟩ := unhex_upperhex c
      simp only [h, if_true]
      unfold PathUnescape
      simp only [List.getD_eq_getElem?_getD] at h1 h2 h3
      simp [h1, h2, h3, ih]
    · have hc : c ≠ percent := by
        intro hp
        exact h (hp ▸ shouldEscape_percent)
      simp only [h]
      unfold PathUnescape
      simp [hc, ih]

theorem safeBaseName_clean (name : Str) :
    dquote ∉ safeBaseName name ∧ apostrophe ∉ safeBaseName name ∧ space ∉ safeBaseName name := by
  unfold safeBaseName
  simp only
  split
  · decide
  · refine ⟨?_, ?_, ?_⟩
    · apply not_mem_ReplaceAll _ _ _ _ _ (by decide)
      apply not_mem_ReplaceAll _ _ _ _ _ (by decide)
      exact not_mem_ReplaceAll_self _ _ _ (by decide)
    · apply not_mem_ReplaceAll _ _ _ _ _ (by decide)
      exact not_mem_ReplaceAll_self _ _ _ (by decide)
    · exact not_mem_ReplaceAll_self _ _ _ (by decide)

/-- C5: for every display name, `contentDispositionAttachment` has the form
`attachment; filename="F"; filename*=UTF-8''E` where `F` holds no double quote,
no apostrophe and no space, and percent-decoding `E` gives the name with every
carriage return and newline removed; and `movie.mp3` gives
`attachment; filename="movie.mp3"; filename*=UTF-8''movie.mp3`. -/
theorem contentDisposition_form :
    (∀ name : Str, ∃ F E : Str,
      contentDispositionAttachment name =
        ascii "attachment; filename=\"" ++ F ++ ascii "\"; filename*=UTF-8''" ++ E ∧
      dquote ∉ F ∧ apostrophe ∉ F ∧ space ∉ F ∧
      PathUnescape E = some (name.filter (fun c => c ≠ cr ∧ c ≠ lf))) ∧
    contentDispositionAttachment (ascii "movie.mp3") =
      ascii "attachment; filename=\"movie.mp3\"; filename*=UTF-8''movie.mp3" := by
  refine ⟨fun name => ?_, by decide⟩
  refine ⟨safeBaseName name, PathEscape (ReplaceAll (ReplaceAll name cr []) lf []), rfl, ?_⟩
  obtain ⟨h1, h2, h3⟩ := safeBaseName_clean name
  refine ⟨h1, h2, h3, ?_⟩
  rw [PathUnescape_PathEscape, ReplaceAll_cr_lf]

/-! ## The name hint -/

theorem firstValue_append (a b : List Str) (h : a ≠ []) : firstValue (a ++ b) = firstValue a := by
  cases a with
  | nil => exact absurd rfl h
  | cons x t => rfl

theorem TrimSpace_firstValue_nil : TrimSpace (firstValue ([] : List Str)) = [] := by decide

/-- C7, as stated, fails: the request `POST /extract-audio?name=%20` with the
url-encoded body `name=talk` carries a `name` query parameter, and its name hint is
the form value `talk`, not the (empty) trimmed query value. -/
theorem nameHint_blank_query :
    reqBlankQuery.method = ascii "POST" ∧
    reqBlankQuery.queryName ≠ [] ∧
    (resolveSource reqBlankQuery).toOption = some ⟨none, ascii "talk"⟩ ∧
    ascii "talk" ≠ TrimSpace (firstValue reqBlankQuery.queryName) := by
  decide

/-- C7, amended: for a request that carries a `name` query parameter, the name hint
is that parameter's trimmed value, whatever the form supplies, when the trimmed
value is non-empty, or the body is multipart, or the url-encoded body has no `name`
value; in the one remaining case (trimmed query value empty, body not multipart
and holding a `name` value) the hint is the trimmed first `name` value of the body.
For a request without a `name` query parameter the hint is the trimmed first form
value. -/
theorem nameHint_query_precedence (r : Request) (src : Source)
    (h : resolveSource r = .ok src) :
    (r.queryName ≠ [] →
      (TrimSpace (firstValue r.queryName) ≠ [] ∨
        HasPrefix r.contentType (ascii "multipart/form-data") = true ∨
        r.postFormName = []) →
      src.nameHint = TrimSpace (firstValue r.queryName)) ∧
    (TrimSpace (firstValue r.queryName) = [] →
      HasPrefix r.contentType (ascii "multipart/form-data") = false →
      r.postFormName ≠ [] →
      src.nameHint = TrimSpace (firstValue r.postFormName)) ∧
    (r.queryName = [] → src.nameHint = TrimSpace (firstValue (formName r))) := by
  unfold resolveSource at h
  unfold formName
  simp only at h
  split at h
  · rename_i hct
    simp only [hct, if_true]
    split at h
    · exact absurd h (by simp)
    · rename_i form hf
      simp only [Except.ok.injEq] at h
      subst h
      refine ⟨fun hq _ => ?_, fun _ hm => absurd hm (by simp), fun hq => ?_⟩
      · simp only [firstValue_append _ _ hq, ite_self]
      · simp only [hq, hf, List.nil_append, TrimSpace_firstValue_nil]
        simp
  · rename_i hct
    simp only [hct]
    simp only [Except.ok.injEq] at h
    subst h
    refine ⟨fun hq hc => ?_, fun hb _ hp => ?_, fun hq => ?_⟩
    · rcases hc with hc | hc | hc
      · simp [hc]
      · exact absurd hc (by simp)
      · simp only [hc, List.nil_append, ite_self]
    · simp only [hb, firstValue_append _ _ hp]
      simp
    · simp only [hq, List.append_nil, TrimSpace_firstValue_nil]
      simp

/-- The amended C7 at two requests with a `name` query parameter and a form value
`talk`: a multipart POST to `/extract-audio?name=%20`, whose hint is the empty
trimmed query value, and a url-encoded POST to `/extract-audio?name=%20show%20`,
whose hint is `show`. -/
theorem nameHint_query_precedence_witness :
    (resolveSource reqMultipartBlankQuery = .ok ⟨some uploadMovie, []⟩ ∧
      reqMultipartBlankQuery.queryName ≠ [] ∧
      (⟨some uploadMovie, []⟩ : Source).nameHint =
        TrimSpace (firstValue reqMultipartBlankQuery.queryName)) ∧
    (resolveSource reqQueryName = .ok ⟨none, ascii "show"⟩ ∧
      reqQueryName.queryName ≠ [] ∧
      (⟨none, ascii "show"⟩ : Source).nameHint =
        TrimSpace (firstValue reqQueryName.queryName)) :=
  ⟨⟨rfl, by decide,
      (nameHint_query_precedence reqMultipartBlankQuery ⟨some uploadMovie, []⟩ rfl).1
        (by decide) (Or.inr (Or.inl rfl))⟩,
    ⟨rfl, by decide,
      (nameHint_query_precedence reqQueryName ⟨none, ascii "show"⟩ rfl).1
        (by decide) (Or.inl (by decide))⟩⟩

/-! ## The transcode invoker's error -/

/-- C8, as stated, fails: a run ended by the context and a run ended by the
encoder's own exit status 1, both having printed `Press [q] to stop`, return the
same error. -/
theorem extractAudioMp3_same_error :
    runKilled.err = some .killedByContext ∧
    ExecError.killedByContext.endedByContext = true ∧
    runExit1.err = some (.exitStatus 1) ∧
    (ExecError.exitStatus 1).encoderReported = true ∧
    extractAudioMp3Result runKilled = extractAudioMp3Result runExit1 := by
  decide

theorem Error_head_of_endedByContext (e : ExecError) (h : e.endedByContext = true) :
    e.Error.head? = some 115 ∨ e.Error.head? = some 99 := by
  cases e <;> simp [ExecError.endedByContext] at h
  · left; rfl
  · right; rfl
  · right; rfl

theorem Error_head_of_encoderReported (e : ExecError) (h : e.encoderReported = true) :
    e.Error.head? = some 101 := by
  cases e <;> simp [ExecError.encoderReported] at h
  rfl

/-- C8, amended: the error `extractAudioMp3` returns carries only a message, the
trimmed merged output of the run or, when that is blank, the text of the execution
error.  So a run ended by the deadline or a disconnect and a run ended by the
encoder's own non-zero exit return different errors whenever both printed nothing
but white space, and the same error whenever they printed the same non-blank
output up to surrounding white space. -/
theorem extractAudioMp3_error_is_message (res1 res2 : CmdResult)
    (e1 e2 : ExecError) (h1 : res1.err = some e1) (h2 : res2.err = some e2)
    (hc : e1.endedByContext = true) (he : e2.encoderReported = true) :
    extractAudioMp3Result res1 =
      some (if TrimSpace res1.out = [] then e1.Error else TrimSpace res1.out) ∧
    extractAudioMp3Result res2 =
      some (if TrimSpace res2.out = [] then e2.Error else TrimSpace res2.out) ∧
    (TrimSpace res1.out = [] → TrimSpace res2.out = [] →
      extractAudioMp3Result res1 ≠ extractAudioMp3Result res2) ∧
    (TrimSpace res1.out ≠ [] → TrimSpace res1.out = TrimSpace res2.out →
      extractAudioMp3Result res1 = extractAudioMp3Result res2) := by
  have r1 : extractAudioMp3Result res1 =
      some (if TrimSpace res1.out = [] then e1.Error else TrimSpace res1.out) := by
    simp [extractAudioMp3Result, h1]
  have r2 : extractAudioMp3Result res2 =
      some (if TrimSpace res2.out = [] then e2.Error else TrimSpace res2.out) := by
    simp [extractAudioMp3Result, h2]
  refine ⟨r1, r2, fun ho1 ho2 => ?_, fun hn heq => ?_⟩
  · rw [r1, r2, if_pos ho1, if_pos ho2]
    intro hsame
    have hsame : e1.Error = e2.Error := Option.some.inj hsame
    have hh := Error_head_of_encoderReported e2 he
    rw [← hsame] at hh
    rcases Error_head_of_endedByContext e1 hc with h | h
    · rw [h] at hh; exact absurd hh (by decide)
    · rw [h] at hh; exact absurd hh (by decide)
  · have hn2 : TrimSpace res2.out ≠ [] := heq ▸ hn
    rw [r1, r2, if_neg hn, if_neg hn2, heq]

/-- The amended C8 at two silent runs, one killed by the context and one exiting
with status 1, whose errors differ, and at two such runs that both printed
`Press [q] to stop`, whose errors are the same. -/
theorem extractAudioMp3_error_is_message_witness :
    (extractAudioMp3Result runKilledSilent = some (ascii "signal: killed") ∧
      extractAudioMp3Result runExit1Silent = some (ascii "exit status 1") ∧
      extractAudioMp3Result runKilledSilent ≠ extractAudioMp3Result runExit1Silent) ∧
    (extractAudioMp3Result runKilled = some (ascii "Press [q] to stop") ∧
      extractAudioMp3Result runKilled = extractAudioMp3Result runExit1) :=
  ⟨⟨(extractAudioMp3_error_is_message runKilledSilent runExit1Silent .killedByContext
        (.exitStatus 1) rfl rfl rfl rfl).1,
      (extractAudioMp3_error_is_message runKilledSilent runExit1Silent .killedByContext
        (.exitStatus 1) rfl rfl rfl rfl).2.1,
      (extractAudioMp3_error_is_message runKilledSilent runExit1Silent .killedByContext
        (.exitStatus 1) rfl rfl rfl rfl).2.2.1 (by decide) (by decide)⟩,
    ⟨(extractAudioMp3_error_is_message runKilled runExit1 .killedByContext
        (.exitStatus 1) rfl rfl rfl rfl).1,
      (extractAudioMp3_error_is_message runKilled runExit1 .killedByContext
        (.exitStatus 1) rfl rfl rfl rfl).2.2.2 (by decide) (by decide)⟩⟩

/-! ## The fallback file name -/

/-- C10 at the display name `é.mp3`: the `filename="..."` parameter holds the two
non-ASCII bytes of `é` unchanged. -/
theorem contentDisposition_fallback_not_ascii :
    safeBaseName nameEAcute = nameEAcute ∧
    isASCII (safeBaseName nameEAcute) = false ∧
    contentDispositionAttachment nameEAcute =
      ascii "attachment; filename=\"" ++ nameEAcute ++
        ascii "\"; filename*=UTF-8''%C3%A9.mp3" := by
  decide

/-! ## The display name -/

/-- C6 at the input `/`: the derived name is `/.mp3`, and deriving again gives
`audio.mp3`; the examples of the claim hold. -/
theorem outputFileName_not_idempotent_at_separator :
    outputFileNameFromInput (ascii "/") (ascii ".mp3") = ascii "/.mp3" ∧
    outputFileNameFromInput (ascii "/.mp3") (ascii ".mp3") = ascii "audio.mp3" ∧
    outputFileNameFromInput (ascii "clip.mp4") (ascii ".mp3") = ascii "clip.mp3" ∧
    outputFileNameFromInput (ascii "clip") (ascii ".mp3") = ascii "clip.mp3" ∧
    outputFileNameFromInput (ascii "clip.mp3") (ascii ".mp3") = ascii "clip.mp3" := by
  decide

/-! ## The handler: cleanup and status codes -/

theorem not_mem_remove (fs : FS) (p : Str) : p ∉ fs.remove p := by
  simp [FS.remove]

theorem mem_of_mem_remove (fs : FS) (p q : Str) (h : q ∈ fs.remove p) : q ∈ fs := by
  simp only [FS.remove, List.mem_filter] at h
  exact h.1

theorem mem_of_mem_run (d : Deferred) (w : World) (q : Str) (h : q ∈ (d.run w).fs) : q ∈ w.fs := by
  cases d with
  | remove p => exact mem_of_mem_remove _ _ _ h
  | cancel => exact h
  | close => exact h

theorem mem_of_mem_runDeferred (ds : List Deferred) (w : World) (q : Str)
    (h : q ∈ (runDeferred ds w).fs) : q ∈ w.fs := by
  induction ds generalizing w with
  | nil => exact h
  | cons d ds ih => exact mem_of_mem_run d w q (ih (d.run w) h)

theorem not_mem_runDeferred_of_remove (ds : List Deferred) (w : World) (p : Str)
    (h : Deferred.remove p ∈ ds) : p ∉ (runDeferred ds w).fs := by
  induction ds generalizing w with
  | nil => simp at h
  | cons d ds ih =>
    rcases List.mem_cons.1 h with hd | ht
    · subst hd
      intro hp
      exact not_mem_remove w.fs p (mem_of_mem_runDeferred ds _ p hp)
    · exact ih _ ht

theorem trace_run (d : Deferred) (w : World) (e : Event) (h : e ∈ (d.run w).trace) :
    e ∈ w.trace ∨ ∃ p, e = .removed p := by
  cases d with
  | remove p =>
    simp only [Deferred.run, List.mem_append, List.mem_singleton] at h
    rcases h with h | h
    · exact Or.inl h
    · exact Or.inr ⟨p, h⟩
  | cancel => exact Or.inl h
  | close => exact Or.inl h

theorem trace_runDeferred (ds : List Deferred) (w : World) (e : Event)
    (h : e ∈ (runDeferred ds w).trace) : e ∈ w.trace ∨ ∃ p, e = .removed p := by
  induction ds generalizing w with
  | nil => exact Or.inl h
  | cons d ds ih =>
    rcases ih (d.run w) h with h1 | h1
    · exact trace_run d w e h1
    · exact Or.inr h1

theorem handleSource_defers_output (cfg : Config) (env : Env) (src : Source) (w : World) :
    Deferred.remove (outPathOf cfg.tempDir (randID env.idBytes)) ∈
      (handleSource cfg env src w).2.2 := by
  unfold handleSource
  simp only
  split
  · split <;> simp
  · split <;> simp

theorem handleSource_defers_upload (cfg : Config) (env : Env) (src : Source) (w : World)
    (up : Upload) (h : src.file = some up) :
    Deferred.remove (inPathOf cfg.tempDir (randID env.idBytes) up.filename) ∈
      (handleSource cfg env src w).2.2 := by
  unfold handleSource
  simp only
  split
  · rename_i up2 h2
    rw [h] at h2
    cases h2
    split <;> simp
  · rename_i h2
    rw [h] at h2
    cases h2

theorem handler_eq (cfg : Config) (env : Env) (r : Request) (w : World) (src : Source)
    (hm : r.method = ascii "POST") (hs : resolveSource r = .ok src) :
    extractAudioHandler cfg env r w =
      (runDeferred (handleSource cfg env src w).2.2 (handleSource cfg env src w).1,
        (handleSource cfg env src w).2.1) := by
  unfold extractAudioHandler
  simp [hm, hs]

/-- C1: for every POST request that reaches output allocation and every behaviour
of the environment, when the handler returns the output path `audio_<id>.mp3` does
not exist, and neither does the upload path when the request uploaded a file. -/
theorem temp_paths_removed (cfg : Config) (env : Env) (r : Request) (w : World) (src : Source)
    (hm : r.method = ascii "POST") (hs : resolveSource r = .ok src) :
    outPathOf cfg.tempDir (randID env.idBytes) ∉ (extractAudioHandler cfg env r w).1.fs ∧
    ∀ up, src.file = some up →
      inPathOf cfg.tempDir (randID env.idBytes) up.filename ∉
        (extractAudioHandler cfg env r w).1.fs := by
  rw [handler_eq cfg env r w src hm hs]
  exact ⟨not_mem_runDeferred_of_remove _ _ _ (handleSource_defers_output cfg env src w),
    fun up hup => not_mem_runDeferred_of_remove _ _ _
      (handleSource_defers_upload cfg env src w up hup)⟩

/-- C1 at a successful upload of `movie.mov`: both temp paths are gone when the
handler returns. -/
theorem temp_paths_removed_witness :
    reqUpload.method = ascii "POST" ∧ resolveSource reqUpload = .ok srcUpload ∧
    outPathOf cfgDefault.tempDir (randID envOk.idBytes) ∉
      (extractAudioHandler cfgDefault envOk reqUpload worldStart).1.fs ∧
    inPathOf cfgDefault.tempDir (randID envOk.idBytes) uploadMovie.filename ∉
      (extractAudioHandler cfgDefault envOk reqUpload worldStart).1.fs :=
  ⟨rfl, rfl, (temp_paths_removed cfgDefault envOk reqUpload worldStart srcUpload rfl rfl).1,
    (temp_paths_removed cfgDefault envOk reqUpload worldStart srcUpload rfl rfl).2
      uploadMovie rfl⟩

/-- C4: for every POST request that submits no file, when the default media path
is missing or a directory, the response status is 400, the handler logs no effect
other than calls of `os.Remove` (no file is created, the encoder is not run), and
no path exists afterwards that did not exist before. -/
theorem no_file_no_default (cfg : Config) (env : Env) (r : Request) (w : World)
    (hm : r.method = ascii "POST")
    (hnf : ∀ src, resolveSource r = .ok src → src.file = none)
    (hd : defaultMissing env = true) :
    (extractAudioHandler cfg env r w).2.status = StatusBadRequest ∧
    (∀ e ∈ (extractAudioHandler cfg env r w).1.trace, e ∈ w.trace ∨ ∃ p, e = .removed p) ∧
    (∀ p ∈ (extractAudioHandler cfg env r w).1.fs, p ∈ w.fs) := by
  cases hs : resolveSource r with
  | error resp =>
    have hresp : resp.status = StatusBadRequest := by
      unfold resolveSource at hs
      simp only at hs
      split at hs
      · split at hs
        · simp only [Except.error.injEq] at hs
          subst hs
          rfl
        · exact absurd hs (by simp)
      · exact absurd hs (by simp)
    have heq : extractAudioHandler cfg env r w = (w, resp) := by
      unfold extractAudioHandler
      simp [hm, hs]
    rw [heq]
    exact ⟨hresp, fun e he => Or.inl he, fun p hp => hp⟩
  | ok src =>
    have hfile := hnf src hs
    rw [handler_eq cfg env r w src hm hs]
    have hh : handleSource cfg env src w =
        (w, httpError (ascii "default video not found on server") StatusBadRequest,
          [.cancel, .remove (outPathOf cfg.tempDir (randID env.idBytes))]) := by
      unfold handleSource
      simp [hfile, hd]
    rw [hh]
    exact ⟨rfl, fun e he => trace_runDeferred _ _ e he,
      fun p hp => mem_of_mem_runDeferred _ _ p hp⟩

theorem reqNoFile_source (src : Source) (h : resolveSource reqNoFile = .ok src) :
    src.file = none := by
  have h3 : resolveSource reqNoFile = .ok ⟨none, []⟩ := rfl
  rw [h3] at h
  rw [← Except.ok.inj h]

/-- C4 at a POST without a body while the default video file does not exist: the
answer is 400. -/
theorem no_file_no_default_witness :
    reqNoFile.method = ascii "POST" ∧ defaultMissing envNoDefault = true ∧
    (extractAudioHandler cfgDefault envNoDefault reqNoFile worldStart).2.status = 400 :=
  ⟨rfl, rfl,
    (no_file_no_default cfgDefault envNoDefault reqNoFile worldStart rfl reqNoFile_source rfl).1⟩

theorem saveToFile_error (env : Env) (path : Str) (w : World) (err : GoError)
    (h : (saveToFile env path w).2 = some err) : err.isBodyReadAfterClose = false := by
  unfold saveToFile at h
  split at h
  · simp only [Option.some.injEq] at h
    rw [← h]
    rfl
  · simp only [Option.map_eq_some'] at h
    obtain ⟨e, _, he⟩ := h
    rw [← he]
    rfl

theorem transcodeAndServe_status (cfg : Config) (env : Env) (inPath outPath dn : Str)
    (w : World) :
    ((extractAudioMp3 env cfg.ffmpegPath inPath outPath cfg.mp3Bitrate cfg.mp3SampleRate
        cfg.mp3Channels w).2 ≠ none →
      (transcodeAndServe cfg env inPath outPath dn w).2.status = StatusInternalServerError) ∧
    (env.openErr ≠ none →
      (transcodeAndServe cfg env inPath outPath dn w).2.status = StatusInternalServerError) ∧
    (∀ e, env.statOut = .error e →
      (transcodeAndServe cfg env inPath outPath dn w).2.status = StatusInternalServerError) := by
  unfold transcodeAndServe
  refine ⟨fun h => ?_, fun h => ?_, fun e h => ?_⟩
  · split
    · rfl
    · rename_i heq
      rw [heq] at h
      exact absurd rfl h
  · split
    · rfl
    · unfold serveAudioFile
      split
      · rfl
      · rename_i h2
        exact absurd h2 h
  · split
    · rfl
    · unfold serveAudioFile
      split
      · rfl
      · rw [h]
        rfl

/-- C9: for every POST request that reaches output allocation, the response status
is 500 when saving the upload fails (`os.Create` or `io.Copy` returns an error,
whichever it is), when the transcode fails, and when opening or stat-ing the
output fails. -/
theorem failure_status (cfg : Config) (env : Env) (r : Request) (w : World) (src : Source)
    (hm : r.method = ascii "POST") (hs : resolveSource r = .ok src) :
    (saveFailure cfg env src w ≠ none →
      (extractAudioHandler cfg env r w).2.status = StatusInternalServerError) ∧
    (transcodeFailure cfg env src w ≠ none →
      (extractAudioHandler cfg env r w).2.status = StatusInternalServerError) ∧
    (serveFailure cfg env src w = true →
      (extractAudioHandler cfg env r w).2.status = StatusInternalServerError) := by
  rw [handler_eq cfg env r w src hm hs]
  simp only
  unfold saveFailure transcodeFailure serveFailure transcodeFailure sourceReady handleSource
  cases hf : src.file with
  | some up =>
    simp only
    cases hsave : saveToFile env (inPathOf cfg.tempDir (randID env.idBytes) up.filename) w with
    | mk w1 serr =>
      cases serr with
      | some err =>
        have hflag : err.isBodyReadAfterClose = false :=
          saveToFile_error env _ w err (by rw [hsave])
        simp only
        refine ⟨fun _ => ?_, fun h => absurd rfl h, fun h => by simp at h⟩
        rw [hflag]
        rfl
      | none =>
        simp only
        obtain ⟨h1, h2, h3⟩ := transcodeAndServe_status cfg env
          (inPathOf cfg.tempDir (randID env.idBytes) up.filename)
          (outPathOf cfg.tempDir (randID env.idBytes))
          (if src.nameHint ≠ [] then outputFileNameFromInput src.nameHint (ascii ".mp3")
            else outputFileNameFromInput up.filename (ascii ".mp3")) w1
        refine ⟨fun h => absurd rfl h, fun h => h1 h, fun h => ?_⟩
        simp only [Option.isSome_some, Bool.true_and, Bool.and_eq_true, Bool.or_eq_true] at h
        rcases h.2 with ho | hst
        · exact h2 (by intro hn; rw [hn] at ho; simp at ho)
        · cases hso : env.statOut with
          | error e => exact h3 e hso
          | ok st => rw [hso] at hst; simp at hst
  | none =>
    simp only
    by_cases hd : defaultMissing env = true
    · simp only [hd, if_true]
      exact ⟨fun h => absurd rfl h, fun h => absurd rfl h, fun h => by simp at h⟩
    · simp only [hd]
      obtain ⟨h1, h2, h3⟩ := transcodeAndServe_status cfg env cfg.defaultVideoPath
        (outPathOf cfg.tempDir (randID env.idBytes))
        (if src.nameHint ≠ [] then outputFileNameFromInput src.nameHint (ascii ".mp3")
          else outputFileNameFromInput (Base cfg.defaultVideoPath) (ascii ".mp3")) w
      refine ⟨fun h => absurd rfl h, fun h => h1 h, fun h => ?_⟩
      simp only [Option.isSome_some, Bool.true_and, Bool.and_eq_true, Bool.or_eq_true] at h
      rcases h.2 with ho | hst
      · exact h2 (by intro hn; rw [hn] at ho; simp at ho)
      · cases hso : env.statOut with
        | error e => exact h3 e hso
        | ok st => rw [hso] at hst; simp at hst

/-- C9 at an upload whose save fails because the disk is full: 500. -/
theorem failure_status_witness :
    saveFailure cfgDefault envDiskFull srcUpload worldStart =
      some ⟨ascii "no space left on device", false⟩ ∧
    (extractAudioHandler cfgDefault envDiskFull reqUpload worldStart).2.status = 500 :=
  ⟨rfl, (failure_status cfgDefault envDiskFull reqUpload worldStart
    srcUpload rfl rfl).1 (by decide)⟩

/-! ## `filepath.Clean`: the loop, element by element -/

theorem isSep_iff (c : Byte) : IsPathSeparator c = true ↔ c = Separator := by
  simp [IsPathSeparator]

theorem isSep_false_iff (c : Byte) : IsPathSeparator c = false ↔ c ≠ Separator := by
  simp [IsPathSeparator]

theorem dropWhile_length_le (p : Byte → Bool) (l : Str) : (l.dropWhile p).length ≤ l.length := by
  induction l with
  | nil => simp
  | cons a t ih =>
    simp only [List.dropWhile_cons]
    split
    · exact Nat.le_succ_of_le ih
    · exact Nat.le_refl _

theorem cleanLoop_succ (rooted : Bool) (fuel : Nat) :
    ∀ (rest : Str) (st : CleanState), rest.length ≤ fuel →
      cleanLoop rooted (fuel + 1) rest st = cleanLoop rooted fuel rest st := by
  induction fuel with
  | zero =>
    intro rest st h
    have : rest = [] := List.length_eq_zero.1 (Nat.le_zero.1 h)
    subst this
    rfl
  | succ n ih =>
    intro rest st h
    cases rest with
    | nil => rfl
    | cons c t =>
      have ht : t.length ≤ n := Nat.le_of_succ_le_succ h
      rw [cleanLoop, cleanLoop]
      split
      · exact ih _ _ ht
      · rename_i hsep
        split
        · exact ih _ _ ht
        · split
          · exact ih _ _ (Nat.le_trans (by simp) ht)
          · apply ih
            have hc : (!IsPathSeparator c) = true := by simpa using hsep
            simp only [List.dropWhile_cons, hc, if_true]
            exact Nat.le_trans (dropWhile_length_le _ _) ht

theorem cleanLoop_fuel (rooted : Bool) (fuel : Nat) (rest : Str) (st : CleanState)
    (h : rest.length ≤ fuel) : cleanLoop rooted fuel rest st = cleanRun rooted rest st := by
  induction fuel with
  | zero =>
    have : rest = [] := List.length_eq_zero.1 (Nat.le_zero.1 h)
    subst this
    rfl
  | succ n ih =>
    rcases Nat.lt_or_ge rest.length (n + 1) with hlt | hge
    · rw [cleanLoop_succ rooted n rest st (Nat.le_of_lt_succ hlt)]
      exact ih (Nat.le_of_lt_succ hlt)
    · have : rest.length = n + 1 := Nat.le_antisymm h hge
      unfold cleanRun
      rw [this]

theorem cleanRun_nil (rooted : Bool) (st : CleanState) : cleanRun rooted [] st = st := rfl

theorem cleanRun_cons (rooted : Bool) (c : Byte) (t : Str) (st : CleanState) :
    cleanRun rooted (c :: t) st =
      if IsPathSeparator c then cleanRun rooted t st
      else if c = dot ∧ (t = [] ∨ (t.head?.map IsPathSeparator) = some true) then
        cleanRun rooted t st
      else if c = dot ∧ t.head? = some dot ∧
          (t.tail = [] ∨ (t.tail.head?.map IsPathSeparator) = some true) then
        cleanRun rooted t.tail (cleanDotDot rooted st)
      else
        cleanRun rooted ((c :: t).dropWhile (fun x => !IsPathSeparator x))
          (cleanElement rooted st ((c :: t).takeWhile (fun x => !IsPathSeparator x))) := by
  show cleanLoop rooted (t.length + 1) (c :: t) st = _
  rw [cleanLoop]
  split
  · rfl
  · rename_i hsep
    split
    · rfl
    · split
      · exact cleanLoop_fuel rooted _ _ _ (by simp)
      · apply cleanLoop_fuel
        have hc : (!IsPathSeparator c) = true := by simpa using hsep
        simp only [List.dropWhile_cons, hc, if_true]
        exact dropWhile_length_le _ _

theorem cleanRun_sep (rooted : Bool) (t : Str) (st : CleanState) :
    cleanRun rooted (Separator :: t) st = cleanRun rooted t st := by
  rw [cleanRun_cons]
  simp [IsPathSeparator]

theorem takeWhile_dropWhile_append (c r : Str) (hc : Separator ∉ c)
    (hr : r = [] ∨ r.head? = some Separator) :
    (c ++ r).takeWhile (fun x => !IsPathSeparator x) = c ∧
    (c ++ r).dropWhile (fun x => !IsPathSeparator x) = r := by
  induction c with
  | nil =>
    rcases hr with hr | hr
    · subst hr; simp
    · cases r with
      | nil => simp
      | cons a t =>
        simp only [List.head?_cons, Option.some.injEq] at hr
        subst hr
        simp [IsPathSeparator]
  | cons a t ih =>
    simp only [List.mem_cons, not_or] at hc
    have ha : (!IsPathSeparator a) = true := by
      simp [IsPathSeparator, Ne.symm hc.1]
    obtain ⟨h1, h2⟩ := ih hc.2
    constructor
    · simp only [List.cons_append, List.takeWhile_cons, ha, if_true, h1]
    · simp only [List.cons_append, List.dropWhile_cons, ha, if_true, h2]

theorem head_sep_cases (r : Str) (hr : r = [] ∨ r.head? = some Separator) :
    r = [] ∨ (r.head?.map IsPathSeparator) = some true := by
  rcases hr with hr | hr
  · exact Or.inl hr
  · right; rw [hr]; rfl

theorem cleanRun_elem (rooted : Bool) (c r : Str) (st : CleanState) (hc : Separator ∉ c)
    (hr : r = [] ∨ r.head? = some Separator) :
    cleanRun rooted (c ++ r) st = cleanRun rooted r (cleanStep rooted st c) := by
  have hr2 := head_sep_cases r hr
  have hr3 : ¬ r.head? = some dot := by
    rcases hr with hr | hr
    · subst hr; simp
    · rw [hr]; decide
  cases c with
  | nil => simp [cleanStep]
  | cons c0 ct =>
    obtain ⟨htw, hdw⟩ := takeWhile_dropWhile_append (c0 :: ct) r hc hr
    simp only [List.mem_cons, not_or] at hc
    have hc0 : IsPathSeparator c0 = false := (isSep_false_iff c0).2 (Ne.symm hc.1)
    rw [List.cons_append, cleanRun_cons]
    rw [List.cons_append] at htw hdw
    rw [htw, hdw]
    simp only [hc0, Bool.false_eq_true, if_false]
    cases ct with
    | nil =>
      simp only [List.nil_append]
      split_ifs with h1 h2
      · have hs : cleanStep rooted st [c0] = st := by simp [cleanStep, h1.1]
        rw [hs]
      · exact absurd h2.2.1 hr3
      · have hd : c0 ≠ dot := fun h => h1 ⟨h, hr2⟩
        have hs : cleanStep rooted st [c0] = cleanElement rooted st [c0] := by
          simp [cleanStep, hd]
        rw [hs]
    | cons c1 ct1 =>
      simp only [List.mem_cons, not_or] at hc
      have hc1 : IsPathSeparator c1 = false := (isSep_false_iff c1).2 (Ne.symm hc.2.1)
      have hn1 : ¬ (c0 = dot ∧ (c1 :: (ct1 ++ r) = [] ∨
          Option.map IsPathSeparator (c1 :: (ct1 ++ r)).head? = some true)) := by
        rintro ⟨_, h | h⟩
        · exact List.cons_ne_nil _ _ h
        · simp [hc1] at h
      simp only [List.cons_append]
      rw [if_neg hn1]
      cases ct1 with
      | nil =>
        simp only [List.nil_append, List.head?_cons, List.tail_cons]
        split_ifs with h2
        · have hs : cleanStep rooted st [c0, c1] = cleanDotDot rooted st := by
            have e0 := h2.1
            have e1 := Option.some.inj h2.2.1
            subst e0 e1
            simp [cleanStep]
          rw [hs]
        · have hne : ¬ ([c0, c1] = [dot, dot]) := by
            intro h
            simp only [List.cons.injEq, and_true] at h
            exact h2 ⟨h.1, by rw [h.2], hr2⟩
          have hs : cleanStep rooted st [c0, c1] = cleanElement rooted st [c0, c1] := by
            simp only [cleanStep]
            rw [if_neg (by simp), if_neg hne]
          rw [hs]
      | cons c2 ct2 =>
        simp only [List.mem_cons, not_or] at hc
        have hc2 : IsPathSeparator c2 = false := (isSep_false_iff c2).2 (Ne.symm hc.2.2.1)
        have hn2 : ¬ (c0 = dot ∧ (c1 :: (c2 :: ct2 ++ r)).head? = some dot ∧
            ((c1 :: (c2 :: ct2 ++ r)).tail = [] ∨
              Option.map IsPathSeparator (c1 :: (c2 :: ct2 ++ r)).tail.head? = some true)) := by
          rintro ⟨_, _, h | h⟩
          · simp at h
          · simp [hc2] at h
        rw [if_neg hn2]
        have hs : cleanStep rooted st (c0 :: c1 :: c2 :: ct2) =
            cleanElement rooted st (c0 :: c1 :: c2 :: ct2) := by
          simp [cleanStep]
        rw [hs]

theorem span_sep (xs : Str) :
    ∃ c r, xs = c ++ r ∧ Separator ∉ c ∧ (r = [] ∨ ∃ r2, r = Separator :: r2) := by
  induction xs with
  | nil => exact ⟨[], [], rfl, by simp, Or.inl rfl⟩
  | cons a t ih =>
    by_cases ha : a = Separator
    · exact ⟨[], a :: t, rfl, by simp, Or.inr ⟨t, by rw [ha]⟩⟩
    · obtain ⟨c, r, h1, h2, h3⟩ := ih
      refine ⟨a :: c, r, by rw [h1]; rfl, ?_, h3⟩
      simp only [List.mem_cons, not_or]
      exact ⟨Ne.symm ha, h2⟩

theorem cleanRun_append_sep (rooted : Bool) (n : Nat) :
    ∀ (xs ys : Str) (st : CleanState), xs.length ≤ n →
      cleanRun rooted (xs ++ Separator :: ys) st = cleanRun rooted ys (cleanRun rooted xs st) := by
  induction n with
  | zero =>
    intro xs ys st h
    have : xs = [] := List.length_eq_zero.1 (Nat.le_zero.1 h)
    subst this
    rw [List.nil_append, cleanRun_sep, cleanRun_nil]
  | succ n ih =>
    intro xs ys st h
    obtain ⟨c, r, hx, hc, hr⟩ := span_sep xs
    rcases hr with hr | ⟨r2, hr⟩
    · subst hr
      rw [List.append_nil] at hx
      subst hx
      rw [cleanRun_elem rooted xs (Separator :: ys) st hc (Or.inr rfl), cleanRun_sep]
      have := cleanRun_elem rooted xs [] st hc (Or.inl rfl)
      rw [List.append_nil, cleanRun_nil] at this
      rw [this]
    · subst hr
      subst hx
      have hlen : r2.length ≤ n := by
        simp only [List.length_append, List.length_cons] at h
        omega
      rw [List.append_assoc, List.cons_append,
        cleanRun_elem rooted c (Separator :: (r2 ++ Separator :: ys)) st hc (Or.inr rfl),
        cleanRun_sep, ih r2 ys _ hlen,
        cleanRun_elem rooted c (Separator :: r2) st hc (Or.inr rfl), cleanRun_sep]

/-! ## `filepath.Join` with a regular last element -/

theorem Clean_eq (path : Str) :
    Clean path =
      if path = [] then [dot]
      else if (cleanFinal path).out = [] then [dot] else (cleanFinal path).out := rfl

theorem cleanRun_noSep (rooted : Bool) (c : Str) (st : CleanState) (hc : Separator ∉ c) :
    cleanRun rooted c st = cleanStep rooted st c := by
  have := cleanRun_elem rooted c [] st hc (Or.inl rfl)
  rwa [List.append_nil, cleanRun_nil] at this

theorem cleanStep_regular (rooted : Bool) (c : Str) (st : CleanState) (hc : Regular c) :
    cleanStep rooted st c = cleanElement rooted st c := by
  obtain ⟨h1, _, h3, h4⟩ := hc
  unfold cleanStep
  rw [if_neg (by simp [h1, h3]), if_neg h4]

theorem isRooted_regular (c : Str) (hc : Regular c) : isRooted c = false := by
  obtain ⟨h1, h2, _, _⟩ := hc
  cases c with
  | nil => exact absurd rfl h1
  | cons a t =>
    simp only [List.mem_cons, not_or] at h2
    simp [isRooted, IsPathSeparator, Ne.symm h2.1]

theorem isRooted_append (dir r : Str) (hd : dir ≠ []) : isRooted (dir ++ r) = isRooted dir := by
  cases dir with
  | nil => exact absurd rfl hd
  | cons a t => rfl

theorem cleanFinal_join (dir comp : Str) (hd : dir ≠ []) (hc : Regular comp) :
    cleanFinal (dir ++ Separator :: comp) = cleanElement (isRooted dir) (cleanFinal dir) comp := by
  have hrt := isRooted_append dir (Separator :: comp) hd
  unfold cleanFinal
  rw [hrt]
  have htail : (dir ++ Separator :: comp).tail = dir.tail ++ Separator :: comp := by
    cases dir with
    | nil => exact absurd rfl hd
    | cons a t => rfl
  have happ : (if isRooted dir = true then (dir ++ Separator :: comp).tail
      else dir ++ Separator :: comp) =
      (if isRooted dir = true then dir.tail else dir) ++ Separator :: comp := by
    split
    · exact htail
    · rfl
  rw [happ, cleanRun_append_sep (isRooted dir) _ _ _ _ (Nat.le_refl _),
    cleanRun_noSep _ _ _ hc.2.1, cleanStep_regular _ _ _ hc]

theorem cleanElement_out_ne_nil (rooted : Bool) (st : CleanState) (c : Str) (hc : c ≠ []) :
    (cleanElement rooted st c).out ≠ [] := by
  unfold cleanElement
  simp [hc]

theorem Join_regular (dir comp : Str) (hc : Regular comp) :
    Join [dir, comp] = joinPrefix dir ++ comp := by
  by_cases hd : dir = []
  · subst hd
    have h1 : Join [[], comp] = Clean comp := by
      simp [Join, stringsJoin, hc.1]
    have h2 : cleanFinal comp = cleanElement false ⟨[], 0⟩ comp := by
      unfold cleanFinal
      rw [isRooted_regular comp hc]
      simp only [Bool.false_eq_true, if_false]
      rw [cleanRun_noSep _ _ _ hc.2.1, cleanStep_regular _ _ _ hc]
    rw [h1, Clean_eq, if_neg hc.1, h2, if_neg (cleanElement_out_ne_nil _ _ _ hc.1)]
    simp [cleanElement, joinPrefix]
  · have h1 : Join [dir, comp] = Clean (dir ++ Separator :: comp) := by
      simp [Join, stringsJoin, hd]
    rw [h1, Clean_eq, if_neg (by simp [hd]), cleanFinal_join dir comp hd hc,
      if_neg (cleanElement_out_ne_nil _ _ _ hc.1)]
    unfold cleanElement joinPrefix
    simp only [hd, if_false]

/-! ## Request ids and temp path names -/

set_option maxRecDepth 100000 in
theorem hextable_digits (v : Byte) :
    hextable.getD (v.val / 16) 0 ≠ Separator ∧ hextable.getD (v.val % 16) 0 ≠ Separator ∧
    (Fin.ofNat (unhex (hextable.getD (v.val / 16) 0) * 16 +
      unhex (hextable.getD (v.val % 16) 0)) : Byte) = v := by
  revert v
  decide

theorem EncodeToString_noSep (b : List Byte) : Separator ∉ EncodeToString b := by
  induction b with
  | nil => simp [EncodeToString]
  | cons v t ih =>
    obtain ⟨h1, h2, _⟩ := hextable_digits v
    unfold EncodeToString
    simp only [List.mem_cons, not_or]
    exact ⟨Ne.symm h1, Ne.symm h2, ih⟩

theorem EncodeToString_length (b : List Byte) : (EncodeToString b).length = 2 * b.length := by
  induction b with
  | nil => rfl
  | cons v t ih =>
    unfold EncodeToString
    simp only [List.length_cons, ih]
    omega

theorem EncodeToString_inj (b1 b2 : List Byte) (h : EncodeToString b1 = EncodeToString b2) :
    b1 = b2 := by
  induction b1 generalizing b2 with
  | nil =>
    cases b2 with
    | nil => rfl
    | cons v t => simp [EncodeToString] at h
  | cons v1 t1 ih =>
    cases b2 with
    | nil => simp [EncodeToString] at h
    | cons v2 t2 =>
      unfold EncodeToString at h
      simp only [List.cons.injEq] at h
      obtain ⟨hh, hl, ht⟩ := h
      have e1 := (hextable_digits v1).2.2
      have e2 := (hextable_digits v2).2.2
      rw [hh, hl, e2] at e1
      rw [e1, ih t2 ht]

theorem lastElement_noSep (path : Str) : Separator ∉ lastElement path := by
  unfold lastElement
  intro h
  rw [List.mem_reverse] at h
  have := List.mem_takeWhile_imp h
  simp [IsPathSeparator] at this

theorem Base_cases (path : Str) : Base path = [Separator] ∨ Separator ∉ Base path := by
  unfold Base
  split
  · right; decide
  · simp only
    split
    · left; rfl
    · right; exact lastElement_noSep _

theorem ReplaceAll_eq_self (s : Str) (old : Byte) (new : Str) (h : old ∉ s) :
    ReplaceAll s old new = s := by
  induction s with
  | nil => rfl
  | cons a t ih =>
    simp only [List.mem_cons, not_or] at h
    unfold ReplaceAll
    rw [if_neg (Ne.symm h.1), ih h.2]

theorem safeBaseName_noSep (name : Str) :
    safeBaseName name ≠ [] ∧ Separator ∉ safeBaseName name := by
  unfold safeBaseName
  simp only
  split
  · exact ⟨by decide, by decide⟩
  · rename_i hne
    simp only [not_or] at hne
    refine ⟨hne.2.2, ?_⟩
    rcases Base_cases name with hb | hb
    · rw [hb] at hne
      exact absurd (by decide) hne.2.1
    · apply not_mem_ReplaceAll _ _ _ _ _ (by decide)
      apply not_mem_ReplaceAll _ _ _ _ _ (by decide)
      exact not_mem_ReplaceAll _ _ _ _ hb (by decide)

theorem ascii_audio_ : ascii "audio_" = [97, 117, 100, 105, 111, 95] := rfl

theorem ascii_upload_ : ascii "upload_" = [117, 112, 108, 111, 97, 100, 95] := rfl

theorem ascii_underscore : ascii "_" = [underscore] := rfl

theorem audioName_regular (id : Str) (h : Separator ∉ id) :
    Regular (ascii "audio_" ++ id ++ ascii ".mp3") := by
  refine ⟨?_, ?_, ?_, ?_⟩
  · simp [ascii_audio_]
  · simp only [List.mem_append, not_or]
    exact ⟨⟨by decide, h⟩, by decide⟩
  · rw [ascii_audio_]
    intro he
    simp at he
  · rw [ascii_audio_]
    intro he
    simp only [List.cons_append, List.cons.injEq] at he
    exact absurd he.1 (by decide)

theorem uploadName_regular (id safe : Str) (h : Separator ∉ id) (hs : Separator ∉ safe) :
    Regular (ascii "upload_" ++ id ++ ascii "_" ++ safe) := by
  refine ⟨?_, ?_, ?_, ?_⟩
  · simp [ascii_upload_]
  · simp only [List.mem_append, not_or]
    exact ⟨⟨⟨by decide, h⟩, by decide⟩, hs⟩
  · rw [ascii_upload_]
    intro he
    simp at he
  · rw [ascii_upload_]
    intro he
    simp only [List.cons_append, List.cons.injEq] at he
    exact absurd he.1 (by decide)

theorem outPathOf_eq (tempDir : Str) (b : List Byte) :
    outPathOf tempDir (randID b) =
      joinPrefix tempDir ++ (ascii "audio_" ++ randID b ++ ascii ".mp3") :=
  Join_regular _ _ (audioName_regular _ (EncodeToString_noSep b))

theorem inPathOf_eq (tempDir : Str) (b : List Byte) (filename : Str) :
    inPathOf tempDir (randID b) filename =
      joinPrefix tempDir ++ (ascii "upload_" ++ randID b ++ ascii "_" ++ safeBaseName filename) :=
  Join_regular _ _
    (uploadName_regular _ _ (EncodeToString_noSep b) (safeBaseName_noSep filename).2)

theorem upload_ne_audio (tempDir : Str) (b b2 : List Byte) (filename : Str) :
    inPathOf tempDir (randID b) filename ≠ outPathOf tempDir (randID b2) := by
  rw [inPathOf_eq, outPathOf_eq, ascii_upload_, ascii_audio_]
  intro h
  have h2 := List.append_cancel_left h
  simp only [List.cons_append, List.cons.injEq] at h2
  exact absurd h2.1 (by decide)

/-- C2: for two distinct 12-byte sequences and any two upload file names, the temp
paths of the two requests under one scratch directory never coincide: the two
`audio_` paths differ, the two `upload_` paths differ, and no `upload_` path equals
an `audio_` path. -/
theorem temp_paths_distinct (tempDir : Str) (b1 b2 : List Byte) (f1 f2 : Str)
    (h1 : b1.length = 12) (h2 : b2.length = 12) (hne : b1 ≠ b2) :
    outPathOf tempDir (randID b1) ≠ outPathOf tempDir (randID b2) ∧
    inPathOf tempDir (randID b1) f1 ≠ inPathOf tempDir (randID b2) f2 ∧
    inPathOf tempDir (randID b1) f1 ≠ outPathOf tempDir (randID b1) ∧
    inPathOf tempDir (randID b1) f1 ≠ outPathOf tempDir (randID b2) ∧
    inPathOf tempDir (randID b2) f2 ≠ outPathOf tempDir (randID b1) ∧
    inPathOf tempDir (randID b2) f2 ≠ outPathOf tempDir (randID b2) := by
  refine ⟨?_, ?_, upload_ne_audio _ _ _ _, upload_ne_audio _ _ _ _, upload_ne_audio _ _ _ _,
    upload_ne_audio _ _ _ _⟩
  · rw [outPathOf_eq, outPathOf_eq]
    intro h
    have h3 := List.append_cancel_left h
    rw [List.append_assoc, List.append_assoc] at h3
    have h4 := List.append_cancel_right (List.append_cancel_left h3)
    exact hne (EncodeToString_inj b1 b2 h4)
  · rw [inPathOf_eq, inPathOf_eq]
    intro h
    have h3 := List.append_cancel_left h
    rw [List.append_assoc, List.append_assoc, List.append_assoc, List.append_assoc] at h3
    have h4 := List.append_cancel_left h3
    have hl : (randID b1).length = (randID b2).length := by
      unfold randID
      rw [EncodeToString_length, EncodeToString_length, h1, h2]
    exact hne (EncodeToString_inj b1 b2 (List.append_inj h4 hl).1)

/-- C2 at two requests uploading `movie.mov` to `/tmp` whose ids differ in the last
byte. -/
theorem temp_paths_distinct_witness :
    outPathOf (ascii "/tmp") (randID [1, 2, 3, 4, 5, 6, 7, 8, 9, 10, 11, 12]) ≠
      outPathOf (ascii "/tmp") (randID [1, 2, 3, 4, 5, 6, 7, 8, 9, 10, 11, 13]) ∧
    inPathOf (ascii "/tmp") (randID [1, 2, 3, 4, 5, 6, 7, 8, 9, 10, 11, 12])
        (ascii "movie.mov") ≠
      inPathOf (ascii "/tmp") (randID [1, 2, 3, 4, 5, 6, 7, 8, 9, 10, 11, 13])
        (ascii "movie.mov") :=
  have h := temp_paths_distinct (ascii "/tmp") [1, 2, 3, 4, 5, 6, 7, 8, 9, 10, 11, 12]
    [1, 2, 3, 4, 5, 6, 7, 8, 9, 10, 11, 13] (ascii "movie.mov") (ascii "movie.mov")
    rfl rfl (by decide)
  ⟨h.1, h.2.1⟩

/-! ## `filepath.Clean`: the canonical form of its output -/

theorem stringsJoin_cons_cons (a b : Str) (l : List Str) (sep : Str) :
    stringsJoin (a :: b :: l) sep = a ++ sep ++ stringsJoin (b :: l) sep := by
  simp [stringsJoin]

theorem stringsJoin_snoc (l : List Str) (c sep : Str) (h : l ≠ []) :
    stringsJoin (l ++ [c]) sep = stringsJoin l sep ++ sep ++ c := by
  induction l with
  | nil => exact absurd rfl h
  | cons a t ih =>
    cases t with
    | nil => simp [stringsJoin]
    | cons b t2 =>
      rw [List.cons_append, List.cons_append, stringsJoin_cons_cons, stringsJoin_cons_cons,
        ← List.cons_append, ih (by simp)]
      simp [List.append_assoc]

theorem stringsJoin_ne_nil (l : List Str) (sep : Str) (h : l ≠ []) (hne : ∀ c ∈ l, c ≠ []) :
    stringsJoin l sep ≠ [] := by
  cases l with
  | nil => exact absurd rfl h
  | cons a t =>
    have ha : a ≠ [] := hne a (by simp)
    cases t with
    | nil => simpa [stringsJoin] using ha
    | cons b t2 =>
      rw [stringsJoin_cons_cons]
      simp [ha]

theorem stringsJoin_push (l : List Str) (c : Str) (hne : ∀ e ∈ l, e ≠ []) :
    (if (stringsJoin l [Separator]).length ≠ 0 then stringsJoin l [Separator] ++ [Separator]
      else stringsJoin l [Separator]) ++ c = stringsJoin (l ++ [c]) [Separator] := by
  by_cases hl : l = []
  · subst hl
    simp [stringsJoin]
  · have h1 := stringsJoin_ne_nil l [Separator] hl hne
    have h2 : (stringsJoin l [Separator]).length ≠ 0 := by
      intro h0
      exact h1 (List.length_eq_zero.1 h0)
    rw [if_pos h2, stringsJoin_snoc l c [Separator] hl]

theorem stringsJoin_length_le (a b : List Str) (sep : Str) :
    (stringsJoin a sep).length ≤ (stringsJoin (a ++ b) sep).length := by
  induction b using List.reverseRecOn with
  | nil => simp
  | append_singleton b c ih =>
    by_cases h : a ++ b = []
    · have ha : a = [] := (List.append_eq_nil.1 h).1
      subst ha
      simp [stringsJoin]
    · rw [← List.append_assoc, stringsJoin_snoc (a ++ b) c sep h]
      simp only [List.length_append]
      omega

theorem form_elems_ne_nil (rooted : Bool) (k : Nat) (comps : List Str)
    (h : FormOk rooted k comps) : ∀ e ∈ List.replicate k [dot, dot] ++ comps, e ≠ [] := by
  intro e he
  rcases List.mem_append.1 he with h1 | h1
  · rw [(List.mem_replicate.1 h1).2]
    simp
  · exact (h.2 e h1).1

theorem form_elems_noSep (rooted : Bool) (k : Nat) (comps : List Str)
    (h : FormOk rooted k comps) :
    ∀ e ∈ List.replicate k [dot, dot] ++ comps, Separator ∉ e := by
  intro e he
  rcases List.mem_append.1 he with h1 | h1
  · rw [(List.mem_replicate.1 h1).2]
    decide
  · exact (h.2 e h1).2.1

theorem cleanElement_form (rooted : Bool) (k : Nat) (comps : List Str) (c : Str)
    (h : FormOk rooted k comps) :
    cleanElement rooted (formState rooted k comps) c = formState rooted k (comps ++ [c]) := by
  have hpush := stringsJoin_push (List.replicate k [dot, dot] ++ comps) c
    (form_elems_ne_nil rooted k comps h)
  unfold cleanElement formState formOut
  simp only [CleanState.mk.injEq, and_true]
  rw [← List.append_assoc (List.replicate k [dot, dot]) comps [c], ← hpush]
  cases rooted with
  | true =>
    simp only [if_true, List.length_append, List.length_singleton, true_and]
    by_cases hz : (stringsJoin (List.replicate k [dot, dot] ++ comps) [Separator]).length = 0
    · simp [hz]
    · have : 1 + (stringsJoin (List.replicate k [dot, dot] ++ comps) [Separator]).length ≠ 1 := by
        omega
      simp [hz, this]
  | false =>
    simp only [Bool.false_eq_true, if_false, false_and, false_or, List.nil_append,
      not_false_eq_true, true_and]

theorem cleanDotDot_form_up (k : Nat) :
    cleanDotDot false (formState false k []) = formState false (k + 1) [] := by
  have hpush := stringsJoin_push (List.replicate k [dot, dot]) [dot, dot]
    (fun e he => by rw [(List.mem_replicate.1 he).2]; simp)
  unfold cleanDotDot formState formOut
  simp only [Bool.false_eq_true, if_false, List.nil_append, List.append_nil, gt_iff_lt,
    Nat.lt_irrefl, Bool.not_false, if_true]
  rw [List.replicate_succ', ← hpush]
  have hiff : 0 < (stringsJoin (List.replicate k [dot, dot]) [Separator]).length ↔
      (stringsJoin (List.replicate k [dot, dot]) [Separator]).length ≠ 0 := Nat.pos_iff_ne_zero
  simp only [hiff]

theorem cleanDotDot_form_root :
    cleanDotDot true (formState true 0 []) = formState true 0 [] := by
  decide

theorem backtrackW_stop (out : Str) (dotdot m : Nat) (hdd : dotdot ≤ m)
    (hstop : m ≤ dotdot ∨ IsPathSeparator (out.getD m 0) = true) :
    ∀ n : Nat, (∀ i, m < i → i ≤ m + n → IsPathSeparator (out.getD i 0) = false) →
      backtrackW out dotdot (m + n) = m := by
  intro n
  induction n with
  | zero =>
    intro _
    cases m with
    | zero => rfl
    | succ m2 =>
      show backtrackW out dotdot (m2 + 1) = m2 + 1
      unfold backtrackW
      rw [if_neg]
      rintro ⟨h1, h2⟩
      rcases hstop with hs | hs
      · omega
      · rw [hs] at h2
        exact absurd h2 (by decide)
  | succ n ih =>
    intro hmid
    show backtrackW out dotdot (m + n + 1) = m
    unfold backtrackW
    have hsep := hmid (m + n + 1) (by omega) (by omega)
    rw [if_pos ⟨by omega, by rw [hsep]; rfl⟩]
    exact ih (fun i h1 h2 => hmid i h1 (by omega))

theorem getD_tail_noSep (b : Str) (h : Separator ∉ b.tail) (j : Nat) (h1 : 0 < j)
    (h2 : j < b.length) : IsPathSeparator (b.getD j 0) = false := by
  cases b with
  | nil => simp at h2
  | cons a t =>
    cases j with
    | zero => omega
    | succ j2 =>
      simp only [List.length_cons] at h2
      have hj : j2 < t.length := by omega
      simp only [List.tail_cons] at h
      rw [List.getD_cons_succ, List.getD_eq_getElem _ _ hj]
      rw [isSep_false_iff]
      intro he
      exact h (he ▸ List.getElem_mem hj)

theorem backtrack_take (a b : Str) (dotdot : Nat) (hdd : dotdot ≤ a.length) (hb : b ≠ [])
    (hstop : a.length ≤ dotdot ∨ b.head? = some Separator) (hmid : Separator ∉ b.tail) :
    (a ++ b).take (backtrackW (a ++ b) dotdot ((a ++ b).length - 1)) = a := by
  have hlen : (a ++ b).length - 1 = a.length + (b.length - 1) := by
    have : 0 < b.length := List.length_pos.2 hb
    simp only [List.length_append]
    omega
  have hw : backtrackW (a ++ b) dotdot (a.length + (b.length - 1)) = a.length := by
    apply backtrackW_stop _ _ _ hdd
    · rcases hstop with hs | hs
      · exact Or.inl hs
      · right
        rw [List.getD_append_right _ _ _ _ (Nat.le_refl _), Nat.sub_self]
        cases b with
        | nil => exact absurd rfl hb
        | cons x t =>
          simp only [List.head?_cons, Option.some.injEq] at hs
          subst hs
          rfl
    · intro i h1 h2
      rw [List.getD_append_right _ _ _ _ (Nat.le_of_lt h1)]
      have : 0 < b.length := List.length_pos.2 hb
      exact getD_tail_noSep b hmid (i - a.length) (by omega) (by omega)
  rw [hlen, hw, List.take_left]

theorem cleanDotDot_form_pop (rooted : Bool) (k : Nat) (comps : List Str) (c : Str)
    (h : FormOk rooted k (comps ++ [c])) :
    cleanDotDot rooted (formState rooted k (comps ++ [c])) = formState rooted k comps := by
  have hc : Regular c := h.2 c (by simp)
  have hok : FormOk rooted k comps := ⟨h.1, fun e he => h.2 e (by simp [he])⟩
  have hcpos : 0 < c.length := List.length_pos.2 hc.1
  -- the output is `a ++ b`, where `a` stays and `b` is removed
  have key : ∃ a b, formOut rooted k (comps ++ [c]) = a ++ b ∧ a = formOut rooted k comps ∧
      b ≠ [] ∧ Separator ∉ b.tail ∧
      (a.length ≤ (formState rooted k comps).dotdot ∨ b.head? = some Separator) ∧
      (formState rooted k comps).dotdot ≤ a.length ∧
      (formState rooted k comps).dotdot < (a ++ b).length := by
    by_cases hl : List.replicate k [dot, dot] ++ comps = []
    · obtain ⟨hk, hcs⟩ := List.append_eq_nil.1 hl
      have hk0 : k = 0 := by
        cases k with
        | zero => rfl
        | succ k2 => simp [List.replicate_succ] at hk
      subst hk0
      subst hcs
      refine ⟨formOut rooted 0 [], c, ?_, rfl, hc.1, ?_, ?_, ?_, ?_⟩
      · simp [formOut, stringsJoin]
      · intro hm
        exact hc.2.1 (List.mem_of_mem_tail hm)
      · left
        cases rooted <;> simp [formOut, formState, stringsJoin]
      · cases rooted <;> simp [formOut, formState, stringsJoin]
      · cases rooted <;> simp [formOut, formState, stringsJoin] <;> omega
    · refine ⟨formOut rooted k comps, Separator :: c, ?_, rfl, by simp, ?_, Or.inr rfl, ?_, ?_⟩
      · unfold formOut
        rw [← List.append_assoc (List.replicate k [dot, dot]) comps [c],
          stringsJoin_snoc _ c [Separator] hl]
        simp [List.append_assoc]
      · simpa using hc.2.1
      · have hle := stringsJoin_length_le (List.replicate k [dot, dot]) comps [Separator]
        have hne := stringsJoin_ne_nil _ [Separator] hl (form_elems_ne_nil rooted k comps hok)
        have hpos := List.length_pos.2 hne
        cases rooted
        · simpa [formOut, formState] using hle
        · simp only [formOut, formState, if_true, List.length_append, List.length_singleton]
          omega
      · have hle := stringsJoin_length_le (List.replicate k [dot, dot]) comps [Separator]
        cases rooted
        · simp only [formOut, formState, Bool.false_eq_true, if_false, List.nil_append,
            List.length_append, List.length_cons]
          omega
        · simp only [formOut, formState, if_true, List.length_append, List.length_singleton,
            List.length_cons]
          omega
  obtain ⟨a, b, hab, ha, hb, hmid, hstop, hdd, hlt⟩ := key
  have hdeq : (formState rooted k (comps ++ [c])).dotdot = (formState rooted k comps).dotdot := rfl
  have hout : (formState rooted k (comps ++ [c])).out = a ++ b := hab
  unfold cleanDotDot
  rw [hout, hdeq, if_pos hlt, backtrack_take a b _ hdd hb hstop hmid, ha]
  rfl

theorem cleanStep_form (rooted : Bool) (k : Nat) (comps : List Str) (c : Str)
    (h : FormOk rooted k comps) (hc : Separator ∉ c) :
    ∃ k2 comps2, FormOk rooted k2 comps2 ∧
      cleanStep rooted (formState rooted k comps) c = formState rooted k2 comps2 := by
  unfold cleanStep
  split_ifs with h1 h2
  · exact ⟨k, comps, h, rfl⟩
  · rcases List.eq_nil_or_concat comps with hn | ⟨init, last, hn⟩
    · subst hn
      cases rooted with
      | true =>
        have hk : k = 0 := h.1 rfl
        subst hk
        exact ⟨0, [], h, cleanDotDot_form_root⟩
      | false =>
        exact ⟨k + 1, [], ⟨fun hf => Bool.noConfusion hf, fun e he => by simp at he⟩,
          cleanDotDot_form_up k⟩
    · rw [List.concat_eq_append] at hn
      subst hn
      exact ⟨k, init, ⟨h.1, fun e he => h.2 e (by simp [he])⟩,
        cleanDotDot_form_pop rooted k init last h⟩
  · have hreg : Regular c := by
      simp only [not_or] at h1
      exact ⟨h1.1, hc, h1.2, h2⟩
    refine ⟨k, comps ++ [c], ⟨h.1, fun e he => ?_⟩, cleanElement_form rooted k comps c h⟩
    rcases List.mem_append.1 he with he | he
    · exact h.2 e he
    · rw [List.mem_singleton.1 he]
      exact hreg

theorem cleanRun_form (rooted : Bool) (n : Nat) :
    ∀ (xs : Str) (k : Nat) (comps : List Str), xs.length ≤ n → FormOk rooted k comps →
      ∃ k2 comps2, FormOk rooted k2 comps2 ∧
        cleanRun rooted xs (formState rooted k comps) = formState rooted k2 comps2 := by
  induction n with
  | zero =>
    intro xs k comps hlen h
    have : xs = [] := List.length_eq_zero.1 (Nat.le_zero.1 hlen)
    subst this
    exact ⟨k, comps, h, rfl⟩
  | succ n ih =>
    intro xs k comps hlen h
    obtain ⟨c, r, hx, hc, hr⟩ := span_sep xs
    obtain ⟨k1, comps1, hok1, hstep⟩ := cleanStep_form rooted k comps c h hc
    rcases hr with hr | ⟨r2, hr⟩
    · subst hr
      rw [List.append_nil] at hx
      subst hx
      rw [cleanRun_noSep rooted xs _ hc, hstep]
      exact ⟨k1, comps1, hok1, rfl⟩
    · subst hr
      subst hx
      have hlen2 : r2.length ≤ n := by
        simp only [List.length_append, List.length_cons] at hlen
        omega
      rw [cleanRun_elem rooted c (Separator :: r2) _ hc (Or.inr rfl), cleanRun_sep, hstep]
      exact ih r2 k1 comps1 hlen2 hok1

theorem cleanFinal_form (path : Str) :
    ∃ k comps, FormOk (isRooted path) k comps ∧
      cleanFinal path = formState (isRooted path) k comps := by
  have hok : FormOk (isRooted path) 0 [] := ⟨fun _ => rfl, fun e he => by simp at he⟩
  have hst : (if isRooted path = true then (⟨[Separator], 1⟩ : CleanState) else ⟨[], 0⟩) =
      formState (isRooted path) 0 [] := by
    cases isRooted path <;> rfl
  unfold cleanFinal
  rw [hst]
  exact cleanRun_form (isRooted path) _ _ 0 [] (Nat.le_refl _) hok

/-! ## `filepath.Clean` is the identity on its output, and `filepath.Dir` of a joined path -/

theorem cleanRun_stringsJoin (rooted : Bool) (l : List Str) :
    ∀ st : CleanState, (∀ e ∈ l, Separator ∉ e) →
      cleanRun rooted (stringsJoin l [Separator]) st = l.foldl (cleanStep rooted) st := by
  induction l with
  | nil => intro st _; rfl
  | cons e t ih =>
    intro st h
    have he : Separator ∉ e := h e (by simp)
    cases t with
    | nil => exact cleanRun_noSep rooted e st he
    | cons e2 t2 =>
      rw [stringsJoin_cons_cons, List.append_assoc, List.singleton_append,
        cleanRun_elem rooted e (Separator :: stringsJoin (e2 :: t2) [Separator]) st he
          (Or.inr rfl),
        cleanRun_sep, ih _ (fun x hx => h x (List.mem_cons_of_mem _ hx))]
      rfl

theorem foldl_form_comps (rooted : Bool) (k : Nat) (comps : List Str) :
    ∀ cs0 : List Str, FormOk rooted k (cs0 ++ comps) →
      comps.foldl (cleanStep rooted) (formState rooted k cs0) = formState rooted k (cs0 ++ comps) := by
  induction comps with
  | nil => intro cs0 _; simp
  | cons c t ih =>
    intro cs0 h
    have hc : Regular c := h.2 c (by simp)
    have hok : FormOk rooted k cs0 := ⟨h.1, fun e he => h.2 e (by simp [he])⟩
    have h2 : FormOk rooted k ((cs0 ++ [c]) ++ t) := by
      rw [List.append_assoc]
      exact h
    rw [List.foldl_cons, cleanStep_regular rooted c _ hc, cleanElement_form rooted k cs0 c hok,
      ih (cs0 ++ [c]) h2, List.append_assoc]
    rfl

theorem foldl_form_dots (k : Nat) :
    (List.replicate k [dot, dot]).foldl (cleanStep false) (formState false 0 []) =
      formState false k [] := by
  induction k with
  | zero => rfl
  | succ k ih =>
    rw [List.replicate_succ', List.foldl_append, ih]
    show cleanStep false (formState false k []) [dot, dot] = _
    have hs : cleanStep false (formState false k []) [dot, dot] =
        cleanDotDot false (formState false k []) := by
      simp [cleanStep]
    rw [hs, cleanDotDot_form_up]

theorem foldl_form (rooted : Bool) (k : Nat) (comps : List Str) (h : FormOk rooted k comps) :
    (List.replicate k [dot, dot] ++ comps).foldl (cleanStep rooted) (formState rooted 0 []) =
      formState rooted k comps := by
  rw [List.foldl_append]
  have hdots : (List.replicate k [dot, dot]).foldl (cleanStep rooted) (formState rooted 0 []) =
      formState rooted k [] := by
    cases rooted with
    | true =>
      have hk : k = 0 := h.1 rfl
      subst hk
      rfl
    | false => exact foldl_form_dots k
  rw [hdots]
  have := foldl_form_comps rooted k comps [] (by simpa using h)
  simpa using this

theorem stringsJoin_head (e : Str) (l : List Str) (sep : Str) :
    ∃ rest, stringsJoin (e :: l) sep = e ++ rest := by
  cases l with
  | nil => exact ⟨[], by simp [stringsJoin]⟩
  | cons b t => exact ⟨sep ++ stringsJoin (b :: t) sep, by rw [stringsJoin_cons_cons]; simp⟩

theorem isRooted_form (rooted : Bool) (k : Nat) (comps : List Str) (h : FormOk rooted k comps)
    (hl : List.replicate k [dot, dot] ++ comps ≠ []) (r : Str) :
    isRooted (formOut rooted k comps ++ r) = rooted := by
  cases rooted with
  | true => rfl
  | false =>
    unfold formOut
    simp only [Bool.false_eq_true, if_false, List.nil_append]
    cases hL : List.replicate k [dot, dot] ++ comps with
    | nil => exact absurd hL hl
    | cons e t =>
      have hne : e ≠ [] := form_elems_ne_nil false k comps h e (by rw [hL]; simp)
      have hns : Separator ∉ e := form_elems_noSep false k comps h e (by rw [hL]; simp)
      obtain ⟨rest, hrest⟩ := stringsJoin_head e t [Separator]
      rw [hrest]
      cases e with
      | nil => exact absurd rfl hne
      | cons a t2 =>
        simp only [List.mem_cons, not_or] at hns
        simp [isRooted, IsPathSeparator, Ne.symm hns.1]

theorem Clean_form_trailing (rooted : Bool) (k : Nat) (comps : List Str)
    (h : FormOk rooted k comps) (hl : List.replicate k [dot, dot] ++ comps ≠ []) :
    Clean (formOut rooted k comps ++ [Separator]) = formOut rooted k comps := by
  have hroot := isRooted_form rooted k comps h hl [Separator]
  have hrest : (if rooted = true then (formOut rooted k comps ++ [Separator]).tail
      else formOut rooted k comps ++ [Separator]) =
      stringsJoin (List.replicate k [dot, dot] ++ comps) [Separator] ++ [Separator] := by
    cases rooted <;> simp [formOut]
  have hst : (if rooted = true then (⟨[Separator], 1⟩ : CleanState) else ⟨[], 0⟩) =
      formState rooted 0 [] := by
    cases rooted <;> rfl
  have hfinal : cleanFinal (formOut rooted k comps ++ [Separator]) = formState rooted k comps := by
    unfold cleanFinal
    rw [hroot, hrest, hst, cleanRun_append_sep rooted _ _ [] _ (Nat.le_refl _), cleanRun_nil,
      cleanRun_stringsJoin rooted _ _ (form_elems_noSep rooted k comps h), foldl_form rooted k comps h]
  have hne : formOut rooted k comps ≠ [] := by
    have := stringsJoin_ne_nil _ [Separator] hl (form_elems_ne_nil rooted k comps h)
    unfold formOut
    simp [this]
  rw [Clean_eq, if_neg (by simp), hfinal]
  show (if formOut rooted k comps = [] then [dot] else formOut rooted k comps) = _
  rw [if_neg hne]

theorem Dir_append (p comp : Str) (hc : Separator ∉ comp)
    (hp : p = [] ∨ ∃ p2, p = p2 ++ [Separator]) : Dir (p ++ comp) = Clean p := by
  unfold Dir
  have hrev : Separator ∉ comp.reverse := by simpa using hc
  have hp2 : p.reverse = [] ∨ p.reverse.head? = some Separator := by
    rcases hp with hp | ⟨p2, hp⟩
    · left; simp [hp]
    · right; simp [hp]
  rw [List.reverse_append, (takeWhile_dropWhile_append _ _ hrev hp2).2, List.reverse_reverse]

theorem joinPrefix_eq (dir : Str) (hd : dir ≠ []) (r : Bool) (o : Str) (hr : isRooted dir = r)
    (ho : (cleanFinal dir).out = o) :
    joinPrefix dir =
      if (r = true ∧ o.length ≠ 1) ∨ (¬ r = true ∧ o.length ≠ 0) then o ++ [Separator] else o := by
  unfold joinPrefix
  rw [if_neg hd]
  simp only [hr, ho]

theorem Clean_joinPrefix (dir : Str) : Clean (joinPrefix dir) = Clean dir ∧
    (joinPrefix dir = [] ∨ ∃ p2, joinPrefix dir = p2 ++ [Separator]) := by
  by_cases hd : dir = []
  · subst hd
    exact ⟨rfl, Or.inl rfl⟩
  · obtain ⟨k, comps, hok, hform⟩ := cleanFinal_form dir
    have ho : (cleanFinal dir).out = formOut (isRooted dir) k comps := by rw [hform]; rfl
    have hcl : Clean dir = if formOut (isRooted dir) k comps = [] then [dot]
        else formOut (isRooted dir) k comps := by
      rw [Clean_eq, if_neg hd, ho]
    have hjp := joinPrefix_eq dir hd (isRooted dir) _ rfl ho
    by_cases hl : List.replicate k [dot, dot] ++ comps = []
    · have hsj : formOut (isRooted dir) k comps = if isRooted dir = true then [Separator] else [] := by
        unfold formOut
        rw [hl]
        simp [stringsJoin]
      rw [hsj] at hjp hcl
      cases hr : isRooted dir with
      | true =>
        simp only [hr, if_true] at hjp hcl
        have hjp2 : joinPrefix dir = [Separator] := by simpa using hjp
        have hcl2 : Clean dir = [Separator] := by simpa using hcl
        rw [hjp2, hcl2]
        exact ⟨by decide, Or.inr ⟨[], rfl⟩⟩
      | false =>
        simp only [hr] at hjp hcl
        have hjp2 : joinPrefix dir = [] := by simpa using hjp
        have hcl2 : Clean dir = [dot] := by simpa using hcl
        rw [hjp2, hcl2]
        exact ⟨by decide, Or.inl rfl⟩
    · have hne := stringsJoin_ne_nil _ [Separator] hl (form_elems_ne_nil _ k comps hok)
      have hpos := List.length_pos.2 hne
      have hcond : (isRooted dir = true ∧ (formOut (isRooted dir) k comps).length ≠ 1) ∨
          (¬ isRooted dir = true ∧ (formOut (isRooted dir) k comps).length ≠ 0) := by
        cases isRooted dir with
        | true =>
          left
          refine ⟨rfl, ?_⟩
          simp only [formOut, if_true, List.length_append, List.length_singleton]
          omega
        | false =>
          right
          refine ⟨by simp, ?_⟩
          simp only [formOut, Bool.false_eq_true, if_false, List.nil_append]
          omega
      have hne2 : formOut (isRooted dir) k comps ≠ [] := by
        unfold formOut
        simp [hne]
      rw [if_pos hcond] at hjp
      rw [if_neg hne2] at hcl
      rw [hjp, hcl]
      exact ⟨Clean_form_trailing _ k comps hok hl, Or.inr ⟨_, rfl⟩⟩

theorem Dir_Join_regular (dir comp : Str) (hc : Regular comp) :
    Dir (Join [dir, comp]) = Clean dir := by
  obtain ⟨h1, h2⟩ := Clean_joinPrefix dir
  rw [Join_regular dir comp hc, Dir_append _ _ hc.2.1 h2, h1]

theorem Base_append (p comp : Str) (hc : Separator ∉ comp) (hne : comp ≠ [])
    (hp : p = [] ∨ ∃ p2, p = p2 ++ [Separator]) : Base (p ++ comp) = comp := by
  have hrev : Separator ∉ comp.reverse := by simpa using hc
  have hp2 : p.reverse = [] ∨ p.reverse.head? = some Separator := by
    rcases hp with hp | ⟨p2, hp⟩
    · left; simp [hp]
    · right; simp [hp]
  have hstrip : stripTrailingSeparators (p ++ comp) = p ++ comp := by
    unfold stripTrailingSeparators
    rw [List.reverse_append]
    cases hcr : comp.reverse with
    | nil => exact absurd (List.reverse_eq_nil_iff.1 hcr) hne
    | cons a t =>
      rw [hcr] at hrev
      simp only [List.mem_cons, not_or] at hrev
      have ha : IsPathSeparator a = false := (isSep_false_iff a).2 (Ne.symm hrev.1)
      simp only [List.cons_append, List.dropWhile_cons, ha, Bool.false_eq_true, if_false]
      rw [← List.cons_append, ← hcr, ← List.reverse_append, List.reverse_reverse]
  unfold Base
  rw [if_neg (by simp [hne])]
  simp only
  rw [hstrip]
  unfold lastElement
  rw [List.reverse_append, (takeWhile_dropWhile_append _ _ hrev hp2).1, List.reverse_reverse,
    if_neg hne]

/-! ## The upload path lies in the scratch directory -/

/-- C3: for every upload file name and every request id `randID` produces,
`safeBaseName` of the file name is non-empty and holds no path separator, the
parent directory of the upload temp path is the cleaned scratch directory, and its
last element is `upload_<id>_<safeBaseName>`. -/
theorem upload_path_inside_scratch (tempDir filename : Str) (b : List Byte) :
    safeBaseName filename ≠ [] ∧ Separator ∉ safeBaseName filename ∧
    Dir (inPathOf tempDir (randID b) filename) = Clean tempDir ∧
    Base (inPathOf tempDir (randID b) filename) =
      ascii "upload_" ++ randID b ++ ascii "_" ++ safeBaseName filename := by
  have hreg := uploadName_regular (randID b) (safeBaseName filename) (EncodeToString_noSep b)
    (safeBaseName_noSep filename).2
  refine ⟨(safeBaseName_noSep filename).1, (safeBaseName_noSep filename).2, ?_, ?_⟩
  · exact Dir_Join_regular tempDir _ hreg
  · rw [inPathOf_eq]
    exact Base_append _ _ hreg.2.1 hreg.1 (Clean_joinPrefix tempDir).2

/-! ## The display name: re-deriving from a derived name -/

theorem mem_of_mem_TrimSuffix (s suf : Str) (c : Byte) (h : c ∈ TrimSuffix s suf) : c ∈ s := by
  unfold TrimSuffix at h
  split at h
  · exact List.mem_of_mem_take h
  · exact h

theorem TrimSuffix_append (s suf : Str) : TrimSuffix (s ++ suf) suf = s := by
  have hlen : (s ++ suf).length - suf.length = s.length := by
    simp
  unfold TrimSuffix HasSuffix
  rw [hlen, List.drop_left, List.take_left]
  simp

theorem Ext_append_mp3 (stem : Str) : Ext (stem ++ ascii ".mp3") = ascii ".mp3" := by
  unfold Ext
  rw [ascii_mp3, List.reverse_append]
  rfl

theorem outputFileName_stem (x : Str) (h : Base x ≠ [Separator]) :
    ∃ stem, outputFileNameFromInput x (ascii ".mp3") = stem ++ ascii ".mp3" ∧
      stem ≠ [] ∧ stem ≠ [dot] ∧ Separator ∉ stem ∧ cr ∉ stem ∧ lf ∉ stem := by
  have hsep : Separator ∉ Base x := by
    rcases Base_cases x with hb | hb
    · exact absurd hb h
    · exact hb
  have hbs : Separator ∉ ReplaceAll (ReplaceAll (Base x) cr []) lf [] :=
    not_mem_ReplaceAll _ _ _ _ (not_mem_ReplaceAll _ _ _ _ hsep (by simp)) (by simp)
  have hbc : cr ∉ ReplaceAll (ReplaceAll (Base x) cr []) lf [] :=
    not_mem_ReplaceAll _ _ _ _ (not_mem_ReplaceAll_self _ _ _ (by simp)) (by simp)
  have hbl : lf ∉ ReplaceAll (ReplaceAll (Base x) cr []) lf [] :=
    not_mem_ReplaceAll_self _ _ _ (by simp)
  have hext : (if (!HasPrefix (ascii ".mp3") [dot]) = true then [dot] ++ ascii ".mp3"
      else ascii ".mp3") = ascii ".mp3" := by decide
  unfold outputFileNameFromInput
  simp only [hext]
  split_ifs with hd
  · exact ⟨ascii "audio", rfl, by decide, by decide, by decide, by decide, by decide⟩
  · simp only [not_or] at hd
    exact ⟨_, rfl, hd.1, hd.2,
      fun hm => hbs (mem_of_mem_TrimSuffix _ _ _ hm),
      fun hm => hbc (mem_of_mem_TrimSuffix _ _ _ hm),
      fun hm => hbl (mem_of_mem_TrimSuffix _ _ _ hm)⟩

theorem outputFileName_fixed (stem : Str) (h1 : stem ≠ []) (h2 : stem ≠ [dot])
    (hs : Separator ∉ stem) (hc : cr ∉ stem) (hl : lf ∉ stem) :
    outputFileNameFromInput (stem ++ ascii ".mp3") (ascii ".mp3") = stem ++ ascii ".mp3" := by
  have hsep : Separator ∉ stem ++ ascii ".mp3" := by
    simp only [List.mem_append, not_or]
    exact ⟨hs, by decide⟩
  have hcr : cr ∉ stem ++ ascii ".mp3" := by
    simp only [List.mem_append, not_or]
    exact ⟨hc, by decide⟩
  have hlf : lf ∉ stem ++ ascii ".mp3" := by
    simp only [List.mem_append, not_or]
    exact ⟨hl, by decide⟩
  have hbase : Base (stem ++ ascii ".mp3") = stem ++ ascii ".mp3" := by
    have := Base_append [] (stem ++ ascii ".mp3") hsep (by simp [h1]) (Or.inl rfl)
    simpa using this
  have hext : (if (!HasPrefix (ascii ".mp3") [dot]) = true then [dot] ++ ascii ".mp3"
      else ascii ".mp3") = ascii ".mp3" := by decide
  unfold outputFileNameFromInput
  simp only [hext, hbase]
  rw [ReplaceAll_eq_self _ _ _ hcr, ReplaceAll_eq_self _ _ _ hlf, Ext_append_mp3,
    TrimSuffix_append, if_neg (by simp [h1, h2])]

/-- Away from the inputs made of separators only, deriving the display name twice
gives what deriving it once gives. -/
theorem outputFileName_idempotent_off_separator (x : Str) (h : Base x ≠ [Separator]) :
    outputFileNameFromInput (outputFileNameFromInput x (ascii ".mp3")) (ascii ".mp3") =
      outputFileNameFromInput x (ascii ".mp3") := by
  obtain ⟨stem, he, h1, h2, h3, h4, h5⟩ := outputFileName_stem x h
  rw [he]
  exact outputFileName_fixed stem h1 h2 h3 h4 h5

/-- The idempotence away from separators, at `clip.mp4`. -/
theorem outputFileName_idempotent_off_separator_witness :
    outputFileNameFromInput (outputFileNameFromInput (ascii "clip.mp4") (ascii ".mp3"))
      (ascii ".mp3") = outputFileNameFromInput (ascii "clip.mp4") (ascii ".mp3") :=
  outputFileName_idempotent_off_separator (ascii "clip.mp4") (by decide)

end VideoAudio
